import Mathlib

/-!
# Verification of the quimb tensor-network engine specification

The repository excerpt ships only the test-suite and the package export list;
the tensor-network engine itself (`quimb.tensor`) is not part of the excerpt.
Following the specification, the engine is modelled here over exact rational
arithmetic: tensors are named-index multi-dimensional arrays, a network is a
list of tensors together with a dimension assignment for the index labels, and
contraction is summation over the shared index labels.  Floating-point
"agreement within tolerance" statements of the specification become exact
equalities in this model.

The file is organised as definitions first, then theorems.
-/

namespace Quimb

/-! ## Definitions: tensors, networks, contraction -/

/-- An environment assigns a value to every index label (labels are `ℕ`). -/
abbrev Env : Type := ℕ → ℕ

/-- Modelled from the spec: summation over the listed index labels, each label
`i` ranging over `0, …, d i - 1`, of an environment-dependent quantity.  This
is the elementary operation underlying network contraction. -/
def sumOver (d : ℕ → ℕ) : List ℕ → (Env → ℚ) → Env → ℚ
  | [], f, σ => f σ
  | i :: l, f, σ => ∑ v ∈ Finset.range (d i), sumOver d l f (Function.update σ i v)

/-- `f` depends only on the index labels in `L`. -/
def DependsOn (f : Env → ℚ) (L : List ℕ) : Prop :=
  ∀ σ τ : Env, (∀ i ∈ L, σ i = τ i) → f σ = f τ

/-- Modelled from the spec: a Tensor is an ordered sequence of index labels
together with its dense array of entries; the array is modelled as a function
from the list of index values (in index order) to the entry. -/
structure Tensor where
  inds : List ℕ
  data : List ℕ → ℚ

/-- The entry of the tensor at the index values given by the environment. -/
def Tensor.eval (t : Tensor) (σ : Env) : ℚ := t.data (t.inds.map σ)

/-- All index labels appearing on a list of tensors, without duplicates. -/
def allIndsOf (ts : List Tensor) : List ℕ := ((ts.map Tensor.inds).flatten).dedup

/-- Product of the entries of all tensors in the list, at one environment. -/
def prodEval (ts : List Tensor) (σ : Env) : ℚ := (ts.map (fun t => t.eval σ)).prod

/-- Modelled from the spec: a TensorNetwork is a collection of tensors plus
the dimension of every index label. -/
structure TNet where
  dims : ℕ → ℕ
  tensors : List Tensor

/-- The index labels of the network. -/
def TNet.allInds (tn : TNet) : List ℕ := allIndsOf tn.tensors

/-- Modelled from the spec: `contract(all, output_inds=out)` — the value of
the network viewed as a function of the output indices: all index labels not
in `out` are summed over, the output labels take their values from `σ`. -/
def TNet.value (tn : TNet) (out : List ℕ) (σ : Env) : ℚ :=
  sumOver tn.dims (tn.allInds.filter (fun i => ¬ i ∈ out))
    (fun ρ => prodEval tn.tensors ρ) σ

/-- Look up the value assigned to label `j` by parallel lists of labels and
values (first match wins, `0` when absent). -/
def envOf : List ℕ → List ℕ → Env
  | [], _, _ => 0
  | _ :: _, [], _ => 0
  | i :: l, v :: vs, j => if j = i then v else envOf l vs j

/-- Modelled from the spec: contract a group of tensors of the network into a
single tensor.  All index labels of the group not listed in `keep` (the labels
shared with the rest of the network, or requested as outputs) are summed over;
the surviving labels become the indices of the new tensor. -/
def mergeGroup (d : ℕ → ℕ) (part : List Tensor) (keep : List ℕ) : Tensor :=
  { inds := (allIndsOf part).filter (fun i => i ∈ keep),
    data := fun vals =>
      sumOver d ((allIndsOf part).filter (fun i => ¬ i ∈ keep))
        (fun ρ => prodEval part ρ)
        (envOf ((allIndsOf part).filter (fun i => i ∈ keep)) vals) }

/-- The tensor returned by out-of-range positional access. -/
def defaultTensor : Tensor := ⟨[], fun _ => 0⟩

/-- Modelled from the spec: contract the pair of tensors at positions `a < b`
of the network, summing every index label carried only by those two tensors
and not requested as an output; positions out of range leave the network
unchanged.  This is one step of a contraction path. -/
def contractPairAt (out : List ℕ) (tn : TNet) (a b : ℕ) : TNet :=
  if a < b ∧ b < tn.tensors.length then
    ⟨tn.dims,
      mergeGroup tn.dims
        [tn.tensors.getD a defaultTensor, tn.tensors.getD b defaultTensor]
        (allIndsOf ((tn.tensors.eraseIdx a).eraseIdx (b - 1)) ++ out) ::
      (tn.tensors.eraseIdx a).eraseIdx (b - 1)⟩
  else tn

/-- Modelled from the spec: run a contraction path (the output of any path
strategy) over the network, contracting to a scalar (`output_inds = []`). -/
def runPath (tn : TNet) (p : List (ℕ × ℕ)) : TNet :=
  p.foldl (fun net s => contractPairAt [] net s.1 s.2) tn

/-- Modelled from the spec: a path is valid for a network of `n` tensors when
every step names two distinct in-range tensors and the path finishes with a
single tensor. -/
def validPath : ℕ → List (ℕ × ℕ) → Bool
  | n, [] => n == 1
  | n, s :: p => decide (s.1 < s.2) && decide (s.2 < n) && validPath (n - 1) p

/-- The scalar a fully contracted network denotes. -/
def TNet.scalarResult (tn : TNet) : ℚ := tn.value [] (fun _ => 0)

/-! ## Definitions: simplifier -/

/-- The number of tensors of the network. -/
def TNet.numTensors (tn : TNet) : ℕ := tn.tensors.length

/-- The number of distinct index labels of the network. -/
def TNet.numIndices (tn : TNet) : ℕ := tn.allInds.length

/-- Modelled from the spec: the outer indices of a network are the index
labels referenced by exactly one tensor (the network's external interface). -/
def TNet.outerInds (tn : TNet) : List ℕ :=
  tn.allInds.filter (fun i => tn.tensors.countP (fun t => i ∈ t.inds) = 1)

/-- All value tuples for a list of index labels, each value ranging below the
label's dimension (the positions of the tensor's dense array). -/
def tuples (d : ℕ → ℕ) : List ℕ → List (List ℕ)
  | [] => [[]]
  | ix :: l =>
    ((List.range (d ix)).map (fun v => (tuples d l).map (fun vs => v :: vs))).flatten

/-- Executable detection of diagonal structure: over every position of the
tensor's array, the entry vanishes unless the values of indices `i` and `j`
coincide. -/
def isDiagOn (d : ℕ → ℕ) (t : Tensor) (i j : ℕ) : Bool :=
  (tuples d t.inds).all (fun vals =>
    decide (envOf t.inds vals i = envOf t.inds vals j) ||
      decide (t.data vals = 0))

/-- The rank-reduced tensor of a diagonal reduction: index `j` is removed and
its array slot is fed the value of index `i`. -/
def diagReduceTensor (t : Tensor) (i j : ℕ) : Tensor :=
  ⟨t.inds.filter (fun ix => ix ≠ j),
   fun vals => t.data (t.inds.map (fun ix =>
     if ix = j then envOf (t.inds.filter (fun iy => iy ≠ j)) vals i
     else envOf (t.inds.filter (fun iy => iy ≠ j)) vals ix))⟩

/-- Rename index `j` to `i` on a tensor (the explicit index identification a
diagonal reduction performs on the rest of the network). -/
def reindexTensor (j i : ℕ) (u : Tensor) : Tensor :=
  ⟨u.inds.map (fun ix => if ix = j then i else ix), u.data⟩

/-- Modelled from the spec: the diagonal/duplicate-index reduction rewrite —
when the tensor at position `k` is diagonal along its (purely internal) index
pair `(i, j)`, replace it by a rank-reduced tensor and identify `j` with `i`
throughout the network (this may turn `i` into a hyperindex).  Guarded by the
executable diagonality check; inapplicable instructions leave the network
unchanged. -/
def diagStep (out : List ℕ) (tn : TNet) (k i j : ℕ) : TNet :=
  if k < tn.tensors.length ∧ i ≠ j ∧
     i ∈ (tn.tensors.getD k defaultTensor).inds ∧
     j ∈ (tn.tensors.getD k defaultTensor).inds ∧
     (∀ ix ∈ (tn.tensors.getD k defaultTensor).inds, ¬ ix ∈ out) ∧
     tn.dims i = tn.dims j ∧
     isDiagOn tn.dims (tn.tensors.getD k defaultTensor) i j = true then
    ⟨tn.dims, diagReduceTensor (tn.tensors.getD k defaultTensor) i j ::
      (tn.tensors.eraseIdx k).map (reindexTensor j i)⟩
  else tn

/-- Modelled from the spec: one rewrite instruction of the simplification
loop, covering the spec's count-non-increasing rewrite kinds: rank
simplification (merge a tensor pair, capped by the configured rank bound),
scalar absorption (fold a rank-0 tensor into a neighbour), and
diagonal/duplicate-index reduction. -/
inductive SimpRewrite : Type
  | mergePair : ℕ → ℕ → SimpRewrite
  | absorbScalar : ℕ → ℕ → SimpRewrite
  | diagReduce : ℕ → ℕ → ℕ → SimpRewrite

/-- Modelled from the spec: apply one guarded rewrite of the simplification
loop.  Output indices in `out` are never summed away or renamed. -/
def simplifyStep (cap : ℕ) (out : List ℕ) (tn : TNet) : SimpRewrite → TNet
  | SimpRewrite.mergePair a b =>
    if (mergeGroup tn.dims
          [tn.tensors.getD a defaultTensor, tn.tensors.getD b defaultTensor]
          (allIndsOf ((tn.tensors.eraseIdx a).eraseIdx (b - 1)) ++ out)
        ).inds.length ≤ cap then
      contractPairAt out tn a b
    else tn
  | SimpRewrite.absorbScalar a b =>
    if (tn.tensors.getD a defaultTensor).inds = [] ∨
       (tn.tensors.getD b defaultTensor).inds = [] then
      contractPairAt out tn a b
    else tn
  | SimpRewrite.diagReduce k i j => diagStep out tn k i j

/-- Modelled from the spec: `full_simplify()` — the fixed-point rewriting
loop, applying the caller-configured sequence of rewrites (rank
simplification, scalar absorption, diagonal reduction) to convergence.
Hyperindex resolution — `hyperResolve` below — necessarily adds a delta
tensor and a fresh index, so it is not one of the loop's rewrites (simplified
networks keep their hyperindices); it is the strictly-bond-graph
preprocessing step a contraction strategy may request, and is modelled and
proven value-preserving separately. -/
def full_simplify (cap : ℕ) (out : List ℕ) (tn : TNet)
    (passes : List SimpRewrite) : TNet :=
  passes.foldl (simplifyStep cap out) tn

/-- The two-leg delta (identity) tensor joining an index and its copy. -/
def deltaTensor (h h2 : ℕ) : Tensor :=
  ⟨[h, h2], fun vals => if vals.getD 0 0 = vals.getD 1 0 then 1 else 0⟩

/-- Modelled from the spec: hyperindex resolution — split the (internal)
index `h`, shared by more than two tensors, by rewiring the tensor at
position `k` to a fresh copy `h2` joined to `h` through a delta tensor,
making the network strictly pairwise on that leg.  Inapplicable instructions
leave the network unchanged. -/
def hyperResolve (tn : TNet) (k h h2 : ℕ) : TNet :=
  if k < tn.tensors.length ∧
     h ∈ (tn.tensors.getD k defaultTensor).inds ∧
     ¬ h2 ∈ tn.allInds ∧ tn.dims h2 = tn.dims h ∧
     3 ≤ tn.tensors.countP (fun t => h ∈ t.inds) then
    ⟨tn.dims, deltaTensor h h2 ::
      reindexTensor h h2 (tn.tensors.getD k defaultTensor) ::
      tn.tensors.eraseIdx k⟩
  else tn

/-! ## Definitions: 2D structured networks and boundary environments -/

/-- A tensor placed at a (row, column) coordinate of a 2D structured
network. -/
structure Sited where
  row : ℕ
  col : ℕ
  ten : Tensor

/-- Modelled from the spec: a 2D structured network — tensors assigned
(row, column) coordinates on a grid, plus the dimension map. -/
structure Grid where
  dims : ℕ → ℕ
  sites : List Sited

/-- The plain tensor network underlying the 2D network. -/
def Grid.net (g : Grid) : TNet := ⟨g.dims, g.sites.map Sited.ten⟩

/-- The tensors of row `i` (the selection by the row tag). -/
def rowTensors (g : Grid) (i : ℕ) : List Tensor :=
  (g.sites.filter (fun s => s.row = i)).map Sited.ten

/-- The tensors strictly below row `i`. -/
def belowTensors (g : Grid) (i : ℕ) : List Tensor :=
  (g.sites.filter (fun s => s.row < i)).map Sited.ten

/-- The tensors strictly above row `i`. -/
def aboveTensors (g : Grid) (i : ℕ) : List Tensor :=
  (g.sites.filter (fun s => i < s.row)).map Sited.ten

/-- The tensors of column `j` (the selection by the column tag). -/
def colTensors (g : Grid) (j : ℕ) : List Tensor :=
  (g.sites.filter (fun s => s.col = j)).map Sited.ten

/-- The tensors strictly left of column `j`. -/
def leftTensors (g : Grid) (j : ℕ) : List Tensor :=
  (g.sites.filter (fun s => s.col < j)).map Sited.ten

/-- The tensors strictly right of column `j`. -/
def rightTensors (g : Grid) (j : ℕ) : List Tensor :=
  (g.sites.filter (fun s => j < s.col)).map Sited.ten

/-- Modelled from the spec: the `'below', i` entry of
`compute_row_environments` — the boundary contraction of all rows below `i`,
keeping exactly the labels shared with row `i` and the rows above it.  The
boundary compression is modelled exactly (`cutoff = 0`, unbounded `max_bond`),
matching the rational-arithmetic model of the engine. -/
def rowEnvBelow (g : Grid) (i : ℕ) : Tensor :=
  mergeGroup g.dims (belowTensors g i)
    (allIndsOf (rowTensors g i ++ aboveTensors g i))

/-- Modelled from the spec: the `'above', i` entry of
`compute_row_environments` (exact boundary contraction of the rows above). -/
def rowEnvAbove (g : Grid) (i : ℕ) : Tensor :=
  mergeGroup g.dims (aboveTensors g i)
    (allIndsOf (belowTensors g i ++ rowTensors g i))

/-- Modelled from the spec: the `'left', j` entry of
`compute_col_environments` (exact boundary contraction of the columns to the
left). -/
def colEnvLeft (g : Grid) (j : ℕ) : Tensor :=
  mergeGroup g.dims (leftTensors g j)
    (allIndsOf (colTensors g j ++ rightTensors g j))

/-- Modelled from the spec: the `'right', j` entry of
`compute_col_environments` (exact boundary contraction of the columns to the
right). -/
def colEnvRight (g : Grid) (j : ℕ) : Tensor :=
  mergeGroup g.dims (rightTensors g j)
    (allIndsOf (leftTensors g j ++ colTensors g j))

/-! ## Definitions: circuit amplitudes versus dense state (claim C8) -/

/-- Update the environment on a list of labels with a parallel list of
values. -/
def multiUpdate (σ : Env) : List ℕ → List ℕ → Env
  | [], _ => σ
  | _ :: _, [] => σ
  | q :: qs, b :: bs => multiUpdate (Function.update σ q b) qs bs

/-- Modelled from the spec: the computational-basis bra tensor fixing the
index label `q` to the value `b` (entry 1 where the index equals `b`, else
0). -/
def basisBra (q b : ℕ) : Tensor :=
  ⟨[q], fun vals => if vals = [b] then 1 else 0⟩

/-- Modelled from the spec: a quantum circuit as seen by the engine — a
tensor network whose open indices `qubits` (one per qubit) carry the output
state.  Gates are just tensors inside the network. -/
structure Circuit where
  net : TNet
  qubits : List ℕ

/-- Modelled from the spec: `circ.amplitude(b)` — close every open qubit
index with the corresponding basis bra and contract the augmented network to
a scalar (the lazily contracted amplitude). -/
def Circuit.amplitude (c : Circuit) (bits : List ℕ) : ℚ :=
  TNet.value ⟨c.net.dims, c.net.tensors ++ List.zipWith basisBra c.qubits bits⟩
    [] (fun _ => 0)

/-- Modelled from the spec: the entry of the dense state `circ.to_dense()` at
computational-basis position `bits` — contract with the qubit labels as
output indices and read the entry at `bits`. -/
def Circuit.denseEntry (c : Circuit) (bits : List ℕ) : ℚ :=
  c.net.value c.qubits (multiUpdate (fun _ => 0) c.qubits bits)

/-! ## Definitions: Split / truncated factorization (claim C3) -/

/-- A dense vector. -/
abbrev Vec (m : ℕ) : Type := Fin m → ℚ

/-- A dense matrix (the matricisation of a tensor for Split). -/
abbrev Mat (m n : ℕ) : Type := Fin m → Fin n → ℚ

/-- Euclidean inner product of two vectors. -/
def dot {m : ℕ} (u v : Vec m) : ℚ := ∑ i, u i * v i

/-- The rank-one matrix of one decomposition component
(weight, left vector, right vector). -/
def rank1 {m n : ℕ} (c : ℚ × Vec m × Vec n) : Mat m n :=
  fun i j => c.1 * c.2.1 i * c.2.2 j

/-- Rebuild the matrix from a list of decomposition components. -/
def recompose {m n : ℕ} (l : List (ℚ × Vec m × Vec n)) : Mat m n :=
  fun i j => (l.map (fun c => rank1 c i j)).sum

/-- The components kept by Split: weights at most `cutoff` in magnitude are
discarded, then the bond is capped at `maxBond` components (the decomposition
is presented largest-weight first, as the black-box kernel returns it). -/
def keptComps {m n : ℕ} (cutoff : ℚ) (maxBond : Option ℕ)
    (l : List (ℚ × Vec m × Vec n)) : List (ℚ × Vec m × Vec n) :=
  match maxBond with
  | none => l.filter (fun c => cutoff < |c.1|)
  | some k => (l.filter (fun c => cutoff < |c.1|)).take k

/-- The components discarded by Split (by the cutoff or by the bond cap). -/
def discComps {m n : ℕ} (cutoff : ℚ) (maxBond : Option ℕ)
    (l : List (ℚ × Vec m × Vec n)) : List (ℚ × Vec m × Vec n) :=
  match maxBond with
  | none => l.filter (fun c => ¬ cutoff < |c.1|)
  | some k => (l.filter (fun c => cutoff < |c.1|)).drop k ++
      l.filter (fun c => ¬ cutoff < |c.1|)

/-- The result of Split: two lists of factor vectors joined by the new bond
(weights absorbed into the left factor), plus the reported truncation error
(the sum of the squared discarded weights — the squared Frobenius norm of the
discarded part), observable to the caller. -/
structure SplitResult (m n : ℕ) where
  left : List (Vec m)
  right : List (Vec n)
  discardedSq : ℚ

/-- Modelled from the spec: Split of a tensor via a black-box orthogonal
decomposition: `cutoff` discards small-weight components, `maxBond` caps the
new bond dimension, the discarded weight is reported to the caller. -/
def splitT {m n : ℕ} (cutoff : ℚ) (maxBond : Option ℕ)
    (l : List (ℚ × Vec m × Vec n)) : SplitResult m n :=
  { left := (keptComps cutoff maxBond l).map (fun c => fun i => c.1 * c.2.1 i),
    right := (keptComps cutoff maxBond l).map (fun c => c.2.2),
    discardedSq := ((discComps cutoff maxBond l).map (fun c => c.1 ^ 2)).sum }

/-- Contract the two Split factors over the new bond index. -/
def contractFactors {m n : ℕ} (r : SplitResult m n) : Mat m n :=
  fun i j => (List.zipWith (fun u v => u i * v j) r.left r.right).sum

/-- Frobenius inner product of two matrices. -/
def crossInner {m n : ℕ} (M N : Mat m n) : ℚ := ∑ i, ∑ j, M i j * N i j

/-- Squared Frobenius norm. -/
def frobSq {m n : ℕ} (M : Mat m n) : ℚ := crossInner M M

/-- The decomposition components are orthonormal on both sides (what the
black-box orthogonal kernel guarantees). -/
abbrev OrthoComps {m n : ℕ} (l : List (ℚ × Vec m × Vec n)) : Prop :=
  (∀ c ∈ l, dot c.2.1 c.2.1 = 1 ∧ dot c.2.2 c.2.2 = 1) ∧
  l.Pairwise (fun c cc => dot c.2.1 cc.2.1 = 0 ∧ dot c.2.2 cc.2.2 = 0)

/-! ## Definitions: double-layer 2D networks and flatten (claim C6) -/

/-- The maximum count an index label reaches over the tensors (used to detect
bonds: labels on at least two tensors). -/
def TNet.innerInds (tn : TNet) : List ℕ :=
  tn.allInds.filter (fun i => 2 ≤ tn.tensors.countP (fun t => i ∈ t.inds))

/-- Modelled from the spec: `max_bond()` — the largest dimension over the
labels shared by at least two tensors. -/
def TNet.maxBond (tn : TNet) : ℕ := (tn.innerInds.map tn.dims).foldr max 0

/-- Index codes of the double-layer grid: site `(i, j)` of an `Lx × Ly` grid
has base code `5 * (i * Ly + j)`; offset 0 is the physical index, offsets 1/2
the ket bonds to the right/down neighbour, offsets 3/4 the bra bonds. -/
def physIdx (Ly i j : ℕ) : ℕ := 5 * (i * Ly + j)

/-- Ket-layer bond between `(i, j)` and `(i, j+1)`. -/
def ketRight (Ly i j : ℕ) : ℕ := 5 * (i * Ly + j) + 1

/-- Ket-layer bond between `(i, j)` and `(i+1, j)`. -/
def ketDown (Ly i j : ℕ) : ℕ := 5 * (i * Ly + j) + 2

/-- Bra-layer bond between `(i, j)` and `(i, j+1)`. -/
def braRight (Ly i j : ℕ) : ℕ := 5 * (i * Ly + j) + 3

/-- Bra-layer bond between `(i, j)` and `(i+1, j)`. -/
def braDown (Ly i j : ℕ) : ℕ := 5 * (i * Ly + j) + 4

/-- The indices of the ket-layer tensor at `(i, j)`: its physical index and
its bonds to the grid neighbours. -/
def ketInds (Lx Ly i j : ℕ) : List ℕ :=
  [physIdx Ly i j] ++
  (if j + 1 < Ly then [ketRight Ly i j] else []) ++
  (if i + 1 < Lx then [ketDown Ly i j] else []) ++
  (if 0 < j then [ketRight Ly i (j - 1)] else []) ++
  (if 0 < i then [ketDown Ly (i - 1) j] else [])

/-- The indices of the bra-layer tensor at `(i, j)`. -/
def braInds (Lx Ly i j : ℕ) : List ℕ :=
  [physIdx Ly i j] ++
  (if j + 1 < Ly then [braRight Ly i j] else []) ++
  (if i + 1 < Lx then [braDown Ly i j] else []) ++
  (if 0 < j then [braRight Ly i (j - 1)] else []) ++
  (if 0 < i then [braDown Ly (i - 1) j] else [])

/-- The indices of the flattened tensor at `(i, j)`: the fused bonds, coded
by the ket bond labels. -/
def flatInds (Lx Ly i j : ℕ) : List ℕ :=
  (if j + 1 < Ly then [ketRight Ly i j] else []) ++
  (if i + 1 < Lx then [ketDown Ly i j] else []) ++
  (if 0 < j then [ketRight Ly i (j - 1)] else []) ++
  (if 0 < i then [ketDown Ly (i - 1) j] else [])

/-- Dimensions of the double-layer network: physical indices have dimension
`p`, every layer bond has dimension `d`. -/
def doubleDims (p d : ℕ) : ℕ → ℕ := fun n => if n % 5 = 0 then p else d

/-- Dimensions after flattening: each fused bond has dimension `d * d`. -/
def flatDims (p d : ℕ) : ℕ → ℕ := fun n => if n % 5 = 0 then p else d * d

/-- The grid coordinates in row-major order. -/
def gridSites (Lx Ly : ℕ) : List (ℕ × ℕ) :=
  (List.range (Lx * Ly)).map (fun s => (s / Ly, s % Ly))

/-- Modelled from the spec: a bra-ket double-layer 2D network (the norm
network `psi.H & psi`): one ket and one bra tensor per site, connected
through the shared physical index, with independent bond layers. -/
def doubleLayerNet (Lx Ly p d : ℕ) (kd bd : ℕ → ℕ → List ℕ → ℚ) : TNet :=
  ⟨doubleDims p d,
    ((gridSites Lx Ly).map (fun s =>
      [⟨ketInds Lx Ly s.1 s.2, kd s.1 s.2⟩,
       ⟨braInds Lx Ly s.1 s.2, bd s.1 s.2⟩])).flatten⟩

/-- Modelled from the spec: `flatten_()` on the double-layer network — merge
the ket and bra tensor of every site into a single tensor (contracting the
shared physical index) and fuse each parallel ket/bra bond pair into one bond
of dimension `d * d` (value `v` decoding to ket value `v / d` and bra value
`v % d`). -/
def flattenNet (Lx Ly p d : ℕ) (kd bd : ℕ → ℕ → List ℕ → ℚ) : TNet :=
  ⟨flatDims p d,
    (gridSites Lx Ly).map (fun s =>
      ⟨flatInds Lx Ly s.1 s.2,
       fun vals => ∑ q ∈ Finset.range p,
         kd s.1 s.2 (q :: vals.map (fun v => v / d)) *
         bd s.1 s.2 (q :: vals.map (fun v => v % d))⟩)⟩

/-! ## Definitions: structural error handling (claim C7) -/

/-- Modelled from the spec: the structural error taxonomy (ShapeError,
NameCollisionError, AmbiguousContractionError, plus a bad-selection error for
out-of-range tensor positions). -/
inductive TNError : Type
  | shapeErr : TNError
  | nameCollision : TNError
  | ambiguous : TNError
  | badSelection : TNError
deriving DecidableEq

/-- A tensor carrying its own declared per-index dimensions (the metadata
that must be checked against neighbours before contraction). -/
structure DTensor where
  inds : List ℕ
  tdims : List ℕ
  data : List ℕ → ℚ

/-- The declared dimension of index `i` on the tensor. -/
def DTensor.dimOf (t : DTensor) (i : ℕ) : ℕ := envOf t.inds t.tdims i

/-- Modelled from the spec: Tensor construction checks the array shape
against the declared index dimensions and raises ShapeError on disagreement,
never silently coercing. -/
def mkTensor (inds tdims shape : List ℕ) (data : List ℕ → ℚ) :
    Except TNError DTensor :=
  if shape = tdims then Except.ok ⟨inds, tdims, data⟩
  else Except.error TNError.shapeErr

/-- Every index shared by the two tensors carries the same declared
dimension on both. -/
def sharedDimsOk (t u : DTensor) : Prop :=
  ∀ i ∈ t.inds, i ∈ u.inds → t.dimOf i = u.dimOf i

instance (t u : DTensor) : Decidable (sharedDimsOk t u) := by
  unfold sharedDimsOk
  infer_instance

/-- A staged primitive mutation of the tensor collection. -/
inductive MutOp : Type
  | removeAt : ℕ → MutOp
  | insert : DTensor → MutOp

/-- Apply one staged mutation. -/
def applyMutOp (net : List DTensor) : MutOp → List DTensor
  | MutOp.removeAt a => net.eraseIdx a
  | MutOp.insert t => t :: net

/-- Commit a list of staged mutations, in order. -/
def applyMutOps (net : List DTensor) (ops : List MutOp) : List DTensor :=
  ops.foldl applyMutOp net

/-- The default tensor for out-of-range access. -/
def defaultDTensor : DTensor := ⟨[], [], fun _ => 0⟩

/-- The plain tensor underlying a dimension-carrying tensor. -/
def DTensor.toTensor (t : DTensor) : Tensor := ⟨t.inds, t.data⟩

/-- All index labels of a dimension-checked network (with repetitions). -/
def dAllInds (net : List DTensor) : List ℕ := (net.map DTensor.inds).flatten

/-- The contraction of two dimension-checked tensors: indices not in `keep`
are summed over (dimensions read from the tensors' own declarations), the
kept indices survive to the result. -/
def dcontractPair (t u : DTensor) (keep : List ℕ) : DTensor :=
  let d : ℕ → ℕ := fun ix => envOf (t.inds ++ u.inds) (t.tdims ++ u.tdims) ix
  let m := mergeGroup d [t.toTensor, u.toTensor] keep
  ⟨m.inds, m.inds.map d, m.data⟩

/-- The indices shared by the candidate pair that a third tensor of the
network also carries — the hyperindices whose fate is ambiguous when no
output indices are specified. -/
def hyperShared (t u : DTensor) (rest : List DTensor) : List ℕ :=
  (t.inds.filter (fun ix => ix ∈ u.inds)).filter
    (fun ix => ix ∈ dAllInds rest)

/-- Modelled from the spec: contract the pair of tensors at positions
`a < b`, with `outSpec` the caller's explicit output indices (`none` when
left unspecified).  The operation validates first — bad-selection on
out-of-range positions, ShapeError on any shared-index dimension mismatch,
AmbiguousContractionError when hyperindices are shared by the pair while
`output_inds` is unspecified (surfaced rather than guessed) — and only on
full success commits the staged mutations (remove both, insert the result,
keeping every index shared with the rest of the network or requested as
output); on any error the network is returned unchanged. -/
def contractPairChecked (net : List DTensor) (a b : ℕ)
    (outSpec : Option (List ℕ)) : List DTensor × Option TNError :=
  if a < b ∧ b < net.length then
    if sharedDimsOk (net.getD a defaultDTensor) (net.getD b defaultDTensor)
    then
      if outSpec = none ∧
         hyperShared (net.getD a defaultDTensor) (net.getD b defaultDTensor)
           ((net.eraseIdx b).eraseIdx a) ≠ [] then
        (net, some TNError.ambiguous)
      else
        (applyMutOps net
          [MutOp.removeAt b, MutOp.removeAt a,
           MutOp.insert (dcontractPair (net.getD a defaultDTensor)
             (net.getD b defaultDTensor)
             (dAllInds ((net.eraseIdx b).eraseIdx a) ++ outSpec.getD []))],
         none)
    else (net, some TNError.shapeErr)
  else (net, some TNError.badSelection)

/-- Rename index `old` to `new` on a dimension-checked tensor. -/
def renameIdx (old new : ℕ) (t : DTensor) : DTensor :=
  ⟨t.inds.map (fun ix => if ix = old then new else ix), t.tdims, t.data⟩

/-- Modelled from the spec: `reindex` — bulk rename of an index.  A rename
onto a name already present in the network would silently merge
previously-distinct indices, so it is detected and fails with
NameCollisionError, the network unchanged; otherwise the rename is committed
on every tensor (`retag` is the same check on the tag registry). -/
def reindexChecked (net : List DTensor) (old new : ℕ) :
    List DTensor × Option TNError :=
  if new ≠ old ∧ new ∈ dAllInds net then (net, some TNError.nameCollision)
  else (net.map (renameIdx old new), none)

/-! ## Definitions: circuit gates on quantum states (claims C9, C10) -/

/-- The state of an `L`-qubit register over the scalar ring `R`: amplitudes
indexed by computational-basis assignments. -/
abbrev QState (L : ℕ) (R : Type) : Type := (Fin L → Fin 2) → R

/-- The inner product `psi.H @ phi` of two states. -/
def qInner {L : ℕ} {R : Type} [CommRing R] [StarRing R]
    (ψ φ : QState L R) : R :=
  ∑ b : Fin L → Fin 2, star (ψ b) * φ b

/-- An assignment of the qubits in the subset `s`. -/
abbrev SubAsn {L : ℕ} (s : Finset (Fin L)) : Type :=
  (i : {x : Fin L // x ∈ s}) → Fin 2

/-- A gate acting on the qubit subset `s`: a matrix over the subset's
assignments (the tensor the engine is fed, per the spec). -/
abbrev GateMat {L : ℕ} (s : Finset (Fin L)) (R : Type) : Type :=
  SubAsn s → SubAsn s → R

/-- Restrict a full assignment to the subset. -/
def restrictAsn {L : ℕ} {s : Finset (Fin L)} (b : Fin L → Fin 2) : SubAsn s :=
  fun i => b i.1

/-- Rebuild a full assignment from a subset assignment and an assignment of
the complement. -/
def recombine {L : ℕ} (s : Finset (Fin L)) (a : SubAsn s)
    (r : (i : {x : Fin L // ¬ x ∈ s}) → Fin 2) : Fin L → Fin 2 :=
  fun j => if h : j ∈ s then a ⟨j, h⟩ else r ⟨j, h⟩

/-- Override a full assignment on the subset. -/
def overrideAsn {L : ℕ} (s : Finset (Fin L)) (b : Fin L → Fin 2)
    (v : SubAsn s) : Fin L → Fin 2 :=
  fun j => if h : j ∈ s then v ⟨j, h⟩ else b j

/-- Modelled from the spec: apply a gate on the qubit subset `s` to the
state (the gate tensor is contracted with the state's open indices). -/
def applyGateAt {L : ℕ} {R : Type} [CommRing R] (s : Finset (Fin L))
    (U : GateMat s R) (ψ : QState L R) : QState L R :=
  fun b => ∑ v : SubAsn s, U (restrictAsn b) v * ψ (overrideAsn s b v)

/-- The gate matrix is unitary: its columns are an orthonormal family. -/
abbrev UnitaryMat {L : ℕ} {s : Finset (Fin L)} {R : Type} [CommRing R]
    [StarRing R] (U : GateMat s R) : Prop :=
  ∀ v w : SubAsn s,
    (∑ k : SubAsn s, star (U k v) * U k w) = if v = w then 1 else 0

/-- One gate operation of a circuit: a qubit subset and a gate matrix. -/
structure GateOp (L : ℕ) (R : Type) where
  s : Finset (Fin L)
  mat : GateMat s R

/-- Modelled from the spec: apply a sequence of gates to the state (the
common semantics of every circuit backend). -/
def applyOps {L : ℕ} {R : Type} [CommRing R] (ops : List (GateOp L R))
    (ψ : QState L R) : QState L R :=
  ops.foldl (fun φ op => applyGateAt op.s op.mat φ) ψ

/-- Apply a single-qubit gate matrix at qubit `q`. -/
def applyOne {L : ℕ} {R : Type} [CommRing R] (q : Fin L)
    (A : Fin 2 → Fin 2 → R) (ψ : QState L R) : QState L R :=
  fun b => ∑ v : Fin 2, A (b q) v * ψ (Function.update b q v)

/-- Apply a two-qubit gate matrix at the (distinct) qubits `q1, q2`. -/
def applyTwo {L : ℕ} {R : Type} [CommRing R] (q1 q2 : Fin L)
    (U : Fin 2 × Fin 2 → Fin 2 × Fin 2 → R) (ψ : QState L R) : QState L R :=
  fun b => ∑ p : Fin 2 × Fin 2, U (b q1, b q2) p *
    ψ (Function.update (Function.update b q1 p.1) q2 p.2)

/-- The gate with both of its qubit slots swapped. -/
def swapConj {R : Type} (U : Fin 2 × Fin 2 → Fin 2 × Fin 2 → R) :
    Fin 2 × Fin 2 → Fin 2 × Fin 2 → R :=
  fun x y => U (Prod.swap x) (Prod.swap y)

/-- `F` is an exact factorization of the two-qubit gate `U` through a bond:
`U = Σ_k A_k ⊗ B_k` over the pairs in `F`. -/
abbrev IsFactorization {R : Type} [CommRing R]
    (F : List ((Fin 2 → Fin 2 → R) × (Fin 2 → Fin 2 → R)))
    (U : Fin 2 × Fin 2 → Fin 2 × Fin 2 → R) : Prop :=
  ∀ x1 x2 y1 y2, U (x1, x2) (y1, y2) =
    (F.map (fun p => p.1 x1 y1 * p.2 x2 y2)).sum

/-- Modelled from the spec: the `split-gate` strategy — apply the gate as two
local factors joined by a bond (one factor on each qubit, summed over the
bond). -/
def splitGateApply {L : ℕ} {R : Type} [CommRing R] (q1 q2 : Fin L)
    (F : List ((Fin 2 → Fin 2 → R) × (Fin 2 → Fin 2 → R)))
    (ψ : QState L R) : QState L R :=
  fun b => (F.map (fun p => applyOne q2 p.2 (applyOne q1 p.1 ψ) b)).sum

/-- Modelled from the spec: the `swap-split-gate` strategy — split the
swapped gate and apply its factors with the qubit roles exchanged. -/
def swapSplitApply {L : ℕ} {R : Type} [CommRing R] (q1 q2 : Fin L)
    (G : List ((Fin 2 → Fin 2 → R) × (Fin 2 → Fin 2 → R)))
    (ψ : QState L R) : QState L R :=
  splitGateApply q2 q1 G ψ

/-- Modelled from the spec: the `auto-split-gate` strategy — pick whichever
of the two split options yields the smaller resulting bond (the spec's stated
decision criterion). -/
def autoSplitApply {L : ℕ} {R : Type} [CommRing R] (q1 q2 : Fin L)
    (F G : List ((Fin 2 → Fin 2 → R) × (Fin 2 → Fin 2 → R)))
    (ψ : QState L R) : QState L R :=
  if F.length ≤ G.length then splitGateApply q1 q2 F ψ
  else swapSplitApply q1 q2 G ψ

/-! ## Definitions: concrete example networks for witnesses -/

/-- A small concrete three-tensor network used by the witnesses: a 2-site
chain with one dangling weight on each end, all labels of dimension 2. -/
def exNet3 : TNet :=
  ⟨fun _ => 2,
   [⟨[0], fun v => (v.headD 0 : ℚ) + 1⟩,
    ⟨[0, 1], fun v => (v.headD 0 : ℚ) + 2 * ((v.getD 1 0 : ℕ) : ℚ)⟩,
    ⟨[1], fun v => (v.headD 0 : ℚ) - 3⟩]⟩

/-- A concrete two-tensor network whose tensors disagree on the dimension of
their shared index 0 (declared 2 versus 3). -/
def exDNet : List DTensor :=
  [⟨[0], [2], fun _ => 0⟩, ⟨[0], [3], fun _ => 0⟩]

/-- A concrete three-tensor network in which index 0 is a hyperindex (shared
by all three tensors, with agreeing dimensions). -/
def exHyperNet : List DTensor :=
  [⟨[0], [2], fun _ => 0⟩, ⟨[0], [2], fun _ => 0⟩, ⟨[0], [2], fun _ => 0⟩]

/-- A concrete two-tensor network with distinct indices 0 and 1, so renaming
0 to 1 would silently merge them. -/
def exNameNet : List DTensor :=
  [⟨[0], [2], fun _ => 0⟩, ⟨[1], [2], fun _ => 0⟩]

/-- A concrete orthonormal rank-2 decomposition used by the Split witness:
weights 3 and 1/2 on the standard basis vectors. -/
def exComps : List (ℚ × Vec 2 × Vec 2) :=
  [(3, ![1, 0], ![1, 0]), (1/2, ![0, 1], ![0, 1])]

/-- A small concrete two-qubit circuit network: open qubit labels 0 and 1,
one internal bond label 2. -/
def exCircuit : Circuit :=
  ⟨⟨fun _ => 2,
    [⟨[0, 2], fun v => (v.headD 0 : ℚ) + 1⟩,
     ⟨[2, 1], fun v => 2 - (v.getD 1 0 : ℚ)⟩]⟩,
   [0, 1]⟩

/-! ## Theorems: summation infrastructure -/

theorem sumOver_append (d : ℕ → ℕ) (l₁ l₂ : List ℕ) (f : Env → ℚ) (σ : Env) :
    sumOver d (l₁ ++ l₂) f σ = sumOver d l₁ (fun ρ => sumOver d l₂ f ρ) σ := by
  induction l₁ generalizing σ with
  | nil => rfl
  | cons i l ih =>
    simp only [List.cons_append, sumOver]
    exact Finset.sum_congr rfl fun v _ => ih _

theorem sumOver_congr_fun (d : ℕ → ℕ) (l : List ℕ) (f g : Env → ℚ) (σ : Env)
    (h : ∀ ρ, f ρ = g ρ) : sumOver d l f σ = sumOver d l g σ := by
  induction l generalizing σ with
  | nil => exact h σ
  | cons i l ih =>
    simp only [sumOver]
    exact Finset.sum_congr rfl fun v _ => ih _

/-- Summation is unaffected by the values the base environment takes on the
summed labels; only the labels `f` depends on and are not summed matter. -/
theorem sumOver_eq_of_agree (d : ℕ → ℕ) (l : List ℕ) (f : Env → ℚ) (L : List ℕ)
    (hf : DependsOn f L) (σ τ : Env) (h : ∀ i ∈ L, i ∈ l ∨ σ i = τ i) :
    sumOver d l f σ = sumOver d l f τ := by
  induction l generalizing σ τ with
  | nil =>
    refine hf σ τ fun i hi => ?_
    rcases h i hi with h' | h'
    · exact absurd h' (List.not_mem_nil i)
    · exact h'
  | cons j l ih =>
    simp only [sumOver]
    refine Finset.sum_congr rfl fun v _ => ih _ _ fun i hi => ?_
    rcases h i hi with h' | h'
    · rcases List.mem_cons.mp h' with h'' | h''
      · subst h''
        right; simp
      · exact Or.inl h''
    · by_cases hij : i = j
      · subst hij; right; simp
      · right
        simpa [Function.update_noteq hij] using h'

theorem sumOver_swap (d : ℕ → ℕ) (a b : ℕ) (l : List ℕ) (f : Env → ℚ) (σ : Env) :
    sumOver d (a :: b :: l) f σ = sumOver d (b :: a :: l) f σ := by
  by_cases hab : a = b
  · subst hab
    simp [sumOver, Function.update_idem]
  · simp only [sumOver]
    rw [Finset.sum_comm]
    refine Finset.sum_congr rfl fun w _ => Finset.sum_congr rfl fun v _ => ?_
    rw [Function.update_comm hab]

/-- Summation order over the index labels is irrelevant. -/
theorem sumOver_perm (d : ℕ → ℕ) {l l' : List ℕ} (h : l.Perm l') (f : Env → ℚ)
    (σ : Env) : sumOver d l f σ = sumOver d l' f σ := by
  induction h generalizing σ with
  | nil => rfl
  | cons x _ ih =>
    simp only [sumOver]
    exact Finset.sum_congr rfl fun v _ => ih _
  | swap x y l => exact sumOver_swap d _ _ _ f σ
  | trans _ _ ih₁ ih₂ => exact (ih₁ σ).trans (ih₂ σ)

/-- A factor that depends on none of the summed labels pulls out of the sum. -/
theorem sumOver_mul_indep (d : ℕ → ℕ) (l : List ℕ) (f g : Env → ℚ) (L : List ℕ)
    (hg : DependsOn g L) (hdisj : ∀ i ∈ l, i ∉ L) (σ : Env) :
    sumOver d l (fun ρ => f ρ * g ρ) σ = sumOver d l f σ * g σ := by
  induction l generalizing σ with
  | nil => rfl
  | cons j l ih =>
    simp only [sumOver]
    rw [Finset.sum_mul]
    refine Finset.sum_congr rfl fun v _ => ?_
    rw [ih (fun i hi => hdisj i (List.mem_cons_of_mem j hi)) _]
    have : g (Function.update σ j v) = g σ := by
      refine hg _ _ fun i hi => ?_
      have : i ≠ j := fun h => (hdisj j (List.mem_cons_self j l)) (h ▸ hi)
      exact Function.update_noteq this _ _
    rw [this]

/-- Congruence of summation needing agreement only on the environments the
summation actually reaches: in-range values on the summed labels, the base
environment elsewhere. -/
theorem sumOver_congr_inRange (d : ℕ → ℕ) (l : List ℕ) (f g : Env → ℚ)
    (σ : Env)
    (h : ∀ ρ : Env, (∀ ix ∈ l, ρ ix < d ix) →
      (∀ ix, ¬ ix ∈ l → ρ ix = σ ix) → f ρ = g ρ) :
    sumOver d l f σ = sumOver d l g σ := by
  induction l generalizing σ with
  | nil =>
    exact h σ (fun ix hix => absurd hix (List.not_mem_nil ix))
      (fun ix _ => rfl)
  | cons ix l ih =>
    simp only [sumOver]
    refine Finset.sum_congr rfl fun v hv => ?_
    refine ih (Function.update σ ix v) fun ρ hr ha => ?_
    refine h ρ ?_ ?_
    · intro iy hiy
      rcases List.mem_cons.mp hiy with rfl | hiy'
      · by_cases hmem : iy ∈ l
        · exact hr iy hmem
        · rw [ha iy hmem, Function.update_same]
          exact Finset.mem_range.mp hv
      · exact hr iy hiy'
    · intro iy hiy
      have h1 : ¬ iy ∈ l := fun hc => hiy (List.mem_cons_of_mem _ hc)
      have h2 : iy ≠ ix := fun hc => hiy (hc ▸ List.mem_cons_self _ _)
      rw [ha iy h1, Function.update_noteq h2]

/-! ## Theorems: tensors and networks -/

theorem Tensor.eval_dependsOn (t : Tensor) : DependsOn t.eval t.inds := by
  intro σ τ h
  unfold Tensor.eval
  congr 1
  exact List.map_congr_left h

theorem allIndsOf_nodup (ts : List Tensor) : (allIndsOf ts).Nodup :=
  List.nodup_dedup _

theorem mem_allIndsOf {ts : List Tensor} {i : ℕ} :
    i ∈ allIndsOf ts ↔ ∃ t ∈ ts, i ∈ t.inds := by
  simp only [allIndsOf, List.mem_dedup, List.mem_flatten, List.mem_map]
  constructor
  · rintro ⟨l, ⟨t, ht, rfl⟩, hi⟩
    exact ⟨t, ht, hi⟩
  · rintro ⟨t, ht, hi⟩
    exact ⟨t.inds, ⟨t, ht, rfl⟩, hi⟩

theorem prodEval_cons (t : Tensor) (ts : List Tensor) (σ : Env) :
    prodEval (t :: ts) σ = t.eval σ * prodEval ts σ := by
  simp [prodEval]

theorem prodEval_append (ts us : List Tensor) (σ : Env) :
    prodEval (ts ++ us) σ = prodEval ts σ * prodEval us σ := by
  simp [prodEval]

theorem prodEval_perm {ts us : List Tensor} (h : ts.Perm us) (σ : Env) :
    prodEval ts σ = prodEval us σ :=
  List.Perm.prod_eq (h.map _)

theorem prodEval_dependsOn (ts : List Tensor) :
    DependsOn (prodEval ts) (allIndsOf ts) := by
  intro σ τ h
  induction ts with
  | nil => rfl
  | cons t ts ih =>
    rw [prodEval_cons, prodEval_cons]
    have h1 : t.eval σ = t.eval τ :=
      t.eval_dependsOn σ τ fun i hi => h i (mem_allIndsOf.mpr ⟨t, by simp, hi⟩)
    have h2 : prodEval ts σ = prodEval ts τ := by
      refine ih fun i hi => h i ?_
      rcases mem_allIndsOf.mp hi with ⟨u, hu, hiu⟩
      exact mem_allIndsOf.mpr ⟨u, List.mem_cons_of_mem _ hu, hiu⟩
    rw [h1, h2]

/-- The contraction value only depends on the tensor multiset, not on the
order the tensors are stored in. -/
theorem TNet.value_perm (d : ℕ → ℕ) {ts us : List Tensor} (h : ts.Perm us)
    (out : List ℕ) (σ : Env) :
    TNet.value ⟨d, ts⟩ out σ = TNet.value ⟨d, us⟩ out σ := by
  unfold TNet.value TNet.allInds
  have hmem : ∀ i, i ∈ allIndsOf ts ↔ i ∈ allIndsOf us := by
    intro i
    simp only [mem_allIndsOf]
    constructor
    · rintro ⟨t, ht, hi⟩; exact ⟨t, h.mem_iff.mp ht, hi⟩
    · rintro ⟨t, ht, hi⟩; exact ⟨t, h.mem_iff.mpr ht, hi⟩
  have hperm : ((allIndsOf ts).filter (fun i => ¬ i ∈ out)).Perm
      ((allIndsOf us).filter (fun i => ¬ i ∈ out)) := by
    refine (List.perm_ext_iff_of_nodup ((allIndsOf_nodup ts).filter _)
      ((allIndsOf_nodup us).filter _)).mpr fun a => ?_
    simp only [List.mem_filter, hmem]
  rw [sumOver_perm _ hperm]
  exact sumOver_congr_fun _ _ _ _ _ fun ρ => prodEval_perm h ρ

theorem allIndsOf_append {ts us : List Tensor} {i : ℕ} :
    i ∈ allIndsOf (ts ++ us) ↔ i ∈ allIndsOf ts ∨ i ∈ allIndsOf us := by
  simp only [mem_allIndsOf, List.mem_append]
  constructor
  · rintro ⟨t, ht | ht, hi⟩
    · exact Or.inl ⟨t, ht, hi⟩
    · exact Or.inr ⟨t, ht, hi⟩
  · rintro (⟨t, ht, hi⟩ | ⟨t, ht, hi⟩)
    · exact ⟨t, Or.inl ht, hi⟩
    · exact ⟨t, Or.inr ht, hi⟩

theorem envOf_map (l : List ℕ) (ρ : Env) {i : ℕ} (h : i ∈ l) :
    envOf l (l.map ρ) i = ρ i := by
  induction l with
  | nil => cases h
  | cons a l ih =>
    simp only [List.map_cons, envOf]
    by_cases hia : i = a
    · subst hia; simp
    · rw [if_neg hia]
      exact ih ((List.mem_cons.mp h).resolve_left hia)

theorem mergeGroup_eval (d : ℕ → ℕ) (part : List Tensor) (keep : List ℕ)
    (ρ : Env) :
    (mergeGroup d part keep).eval ρ =
      sumOver d ((allIndsOf part).filter (fun i => ¬ i ∈ keep))
        (fun τ => prodEval part τ) ρ := by
  unfold Tensor.eval mergeGroup
  simp only
  refine sumOver_eq_of_agree d _ _ (allIndsOf part) (prodEval_dependsOn part)
    _ _ fun i hi => ?_
  by_cases hk : i ∈ keep
  · right
    exact envOf_map _ ρ (by simp [List.mem_filter, hi, hk])
  · left
    simp [List.mem_filter, hi, hk]

/-- Replacing a group of tensors by its contraction (keeping exactly the
labels shared with the rest of the network or demanded as outputs) does not
change the value of the network: the central contraction-correctness lemma. -/
theorem value_mergeGroup (d : ℕ → ℕ) (part rest : List Tensor)
    (keep out : List ℕ)
    (hkeep : ∀ i ∈ allIndsOf part, (i ∈ keep ↔ i ∈ allIndsOf rest ∨ i ∈ out))
    (σ : Env) :
    TNet.value ⟨d, mergeGroup d part keep :: rest⟩ out σ =
    TNet.value ⟨d, part ++ rest⟩ out σ := by
  classical
  set P := allIndsOf part with hP
  set S := P.filter (fun i => ¬ i ∈ keep) with hS
  set F := (allIndsOf (part ++ rest)).filter (fun i => ¬ i ∈ out) with hF
  set T := F.filter (fun i => ¬ i ∈ S) with hT
  have hmemS : ∀ i, i ∈ S ↔ i ∈ P ∧ ¬ i ∈ keep := by
    intro i; simp [hS, List.mem_filter]
  have hmemF : ∀ i, i ∈ F ↔ (i ∈ P ∨ i ∈ allIndsOf rest) ∧ ¬ i ∈ out := by
    intro i; simp [hF, List.mem_filter, allIndsOf_append, hP]
  have hmemT : ∀ i, i ∈ T ↔
      ((i ∈ P ∨ i ∈ allIndsOf rest) ∧ ¬ i ∈ out) ∧ ¬ i ∈ S := by
    intro i; simp [hT, List.mem_filter, hmemF]
  have hSnotR : ∀ i ∈ S, ¬ (i ∈ allIndsOf rest ∨ i ∈ out) := by
    intro i hi
    rcases (hmemS i).mp hi with ⟨hiP, hik⟩
    exact fun hc => hik ((hkeep i hiP).mpr hc)
  have hSF : ∀ i ∈ S, i ∈ F := by
    intro i hi
    rcases (hmemS i).mp hi with ⟨hiP, _⟩
    exact (hmemF i).mpr ⟨Or.inl hiP, fun hc => hSnotR i hi (Or.inr hc)⟩
  have hFnodup : F.Nodup := (allIndsOf_nodup _).filter _
  have hSnodup : S.Nodup := (allIndsOf_nodup _).filter _
  have hTnodup : T.Nodup := hFnodup.filter _
  -- the full summation list splits into the part-exclusive labels S and T
  have hperm : F.Perm (T ++ S) := by
    refine (List.perm_ext_iff_of_nodup hFnodup ?_).mpr fun a => ?_
    · refine List.Nodup.append hTnodup hSnodup fun a haT haS => ?_
      rcases (hmemT a).mp haT with ⟨_, h2⟩
      exact h2 haS
    · simp only [List.mem_append, hmemT]
      constructor
      · intro ha
        by_cases haS : a ∈ S
        · exact Or.inr haS
        · exact Or.inl ⟨(hmemF a).mp ha, haS⟩
      · rintro (⟨ha, _⟩ | ha)
        · exact (hmemF a).mpr ha
        · exact hSF a ha
  -- the summation list of the merged network coincides with T
  have hpermL : ((allIndsOf (mergeGroup d part keep :: rest)).filter
      (fun i => ¬ i ∈ out)).Perm T := by
    refine (List.perm_ext_iff_of_nodup ((allIndsOf_nodup _).filter _)
      hTnodup).mpr fun a => ?_
    have hmergeInds : ∀ i, i ∈ (mergeGroup d part keep).inds ↔
        i ∈ P ∧ i ∈ keep := by
      intro i; simp [mergeGroup, List.mem_filter, hP]
    have hconsInds : ∀ i, i ∈ allIndsOf (mergeGroup d part keep :: rest) ↔
        (i ∈ P ∧ i ∈ keep) ∨ i ∈ allIndsOf rest := by
      intro i
      rw [show mergeGroup d part keep :: rest =
        [mergeGroup d part keep] ++ rest from rfl, allIndsOf_append]
      constructor
      · rintro (h | h)
        · rcases mem_allIndsOf.mp h with ⟨t, ht, hit⟩
          rcases List.mem_singleton.mp ht with rfl
          exact Or.inl ((hmergeInds i).mp hit)
        · exact Or.inr h
      · rintro (h | h)
        · exact Or.inl (mem_allIndsOf.mpr ⟨_, List.mem_singleton_self _,
            (hmergeInds i).mpr h⟩)
        · exact Or.inr h
    simp only [List.mem_filter, hconsInds, hmemT, decide_eq_true_eq]
    constructor
    · rintro ⟨h1 | h1, h2⟩
      · exact ⟨⟨Or.inl h1.1, h2⟩, fun hc => ((hmemS a).mp hc).2 h1.2⟩
      · refine ⟨⟨Or.inr h1, h2⟩, fun hc => ?_⟩
        exact hSnotR a hc (Or.inl h1)
    · rintro ⟨⟨h1 | h1, h2⟩, h3⟩
      · have hak : a ∈ keep := by
          by_contra hak
          exact h3 ((hmemS a).mpr ⟨h1, hak⟩)
        exact ⟨Or.inl ⟨h1, hak⟩, h2⟩
      · exact ⟨Or.inr h1, h2⟩
  -- now compute both sides
  simp only [TNet.value, TNet.allInds]
  rw [sumOver_perm d hpermL, sumOver_perm d (show F.Perm (T ++ S) from hperm),
    sumOver_append]
  refine sumOver_congr_fun d T _ _ σ fun ρ => ?_
  have hfac : sumOver d S (fun τ => prodEval (part ++ rest) τ) ρ =
      sumOver d S (fun τ => prodEval part τ) ρ * prodEval rest ρ := by
    rw [sumOver_congr_fun d S _
      (fun τ => prodEval part τ * prodEval rest τ) ρ
      (fun τ => prodEval_append part rest τ)]
    exact sumOver_mul_indep d S _ _ (allIndsOf rest) (prodEval_dependsOn rest)
      (fun i hi hir => hSnotR i hi (Or.inl hir)) ρ
  rw [hfac, prodEval_cons, mergeGroup_eval]

/-! ## Theorems: contraction paths (claim C1) -/

theorem perm_getD_eraseIdx {α : Type} (x : α) :
    ∀ (l : List α) (a : ℕ), a < l.length →
      l.Perm (l.getD a x :: l.eraseIdx a) := by
  intro l
  induction l with
  | nil => intro a h; simp at h
  | cons y ys ih =>
    intro a h
    match a with
    | 0 => simp
    | n + 1 =>
      have hn : n < ys.length := by simpa using h
      have h1 : (y :: ys).Perm (y :: (ys.getD n x :: ys.eraseIdx n)) :=
        List.Perm.cons y (ih n hn)
      refine h1.trans ?_
      simpa using List.Perm.swap (ys.getD n x) y (ys.eraseIdx n)

theorem getD_eraseIdx_of_lt {α : Type} (x : α) :
    ∀ (l : List α) (a b : ℕ), a < b → b < l.length →
      (l.eraseIdx a).getD (b - 1) x = l.getD b x := by
  intro l
  induction l with
  | nil => intro a b _ h; simp at h
  | cons y ys ih =>
    intro a b hab hb
    match a, b with
    | 0, m + 1 => simp
    | n + 1, m + 1 =>
      have hm : n < m := by omega
      match m, hm with
      | k + 1, _ =>
        have : (ys.eraseIdx n).getD (k + 1 - 1) x = ys.getD (k + 1) x :=
          ih n (k + 1) (by omega) (by simpa using hb)
        simpa using this

theorem tensors_perm_of_pair (tn : TNet) (a b : ℕ)
    (h : a < b ∧ b < tn.tensors.length) :
    tn.tensors.Perm
      (tn.tensors.getD a defaultTensor :: tn.tensors.getD b defaultTensor ::
        (tn.tensors.eraseIdx a).eraseIdx (b - 1)) := by
  obtain ⟨hab, hb⟩ := h
  have ha : a < tn.tensors.length := lt_trans hab hb
  have h1 := perm_getD_eraseIdx defaultTensor tn.tensors a ha
  have hb' : b - 1 < (tn.tensors.eraseIdx a).length := by
    rw [List.length_eraseIdx_of_lt ha]; omega
  have h2 := perm_getD_eraseIdx defaultTensor (tn.tensors.eraseIdx a) (b - 1) hb'
  rw [getD_eraseIdx_of_lt defaultTensor tn.tensors a b hab hb] at h2
  exact h1.trans (List.Perm.cons _ h2)

/-- A pairwise contraction step preserves the value of
`contract(all, output_inds=out)`. -/
theorem value_contractPairAt (out : List ℕ) (tn : TNet) (a b : ℕ) (σ : Env) :
    (contractPairAt out tn a b).value out σ = tn.value out σ := by
  unfold contractPairAt
  by_cases h : a < b ∧ b < tn.tensors.length
  · rw [if_pos h]
    have hkeep : ∀ i ∈ allIndsOf
        [tn.tensors.getD a defaultTensor, tn.tensors.getD b defaultTensor],
        (i ∈ allIndsOf ((tn.tensors.eraseIdx a).eraseIdx (b - 1)) ++ out ↔
          i ∈ allIndsOf ((tn.tensors.eraseIdx a).eraseIdx (b - 1)) ∨
            i ∈ out) := by
      intro i _; exact List.mem_append
    have hmg := value_mergeGroup tn.dims
      [tn.tensors.getD a defaultTensor, tn.tensors.getD b defaultTensor]
      ((tn.tensors.eraseIdx a).eraseIdx (b - 1))
      (allIndsOf ((tn.tensors.eraseIdx a).eraseIdx (b - 1)) ++ out) out hkeep σ
    refine hmg.trans ?_
    have hperm := tensors_perm_of_pair tn a b h
    have := TNet.value_perm tn.dims hperm.symm out σ
    simpa using this
  · rw [if_neg h]

/-- For a network reduced to a single rank-0 tensor, `scalarResult` is just
that tensor's single entry. -/
theorem scalarResult_single (d : ℕ → ℕ) (f : List ℕ → ℚ) :
    TNet.scalarResult ⟨d, [⟨[], f⟩]⟩ = f [] := by
  simp [TNet.scalarResult, TNet.value, TNet.allInds, allIndsOf, sumOver,
    prodEval, Tensor.eval]

theorem value_runPath (tn : TNet) (p : List (ℕ × ℕ)) (σ : Env) :
    (runPath tn p).value [] σ = tn.value [] σ := by
  induction p generalizing tn with
  | nil => rfl
  | cons s p ih =>
    calc (runPath (contractPairAt [] tn s.1 s.2) p).value [] σ
        = (contractPairAt [] tn s.1 s.2).value [] σ := ih _
      _ = tn.value [] σ := value_contractPairAt [] tn s.1 s.2 σ

/-- C1: contraction is invariant to the choice of contraction path: any two
valid paths over the same network produce the same scalar result; the path
optimizer's strategy choice affects only performance, never the value
(exactly, in this rational model — "within floating-point tolerance" in the
floating-point realisation). -/
theorem contract_all_path_invariant (tn : TNet) (A B : List (ℕ × ℕ))
    (hA : validPath tn.tensors.length A = true)
    (hB : validPath tn.tensors.length B = true) :
    (runPath tn A).scalarResult = (runPath tn B).scalarResult := by
  unfold TNet.scalarResult
  rw [value_runPath, value_runPath]

/-- Witness for C1 at a concrete three-tensor network and two concrete
distinct valid paths. -/
theorem contract_all_path_invariant_witness :
    validPath exNet3.tensors.length [(0, 1), (0, 1)] = true ∧
    validPath exNet3.tensors.length [(1, 2), (0, 1)] = true ∧
    (runPath exNet3 [(0, 1), (0, 1)]).scalarResult =
      (runPath exNet3 [(1, 2), (0, 1)]).scalarResult :=
  ⟨by decide, by decide,
    contract_all_path_invariant exNet3 [(0, 1), (0, 1)] [(1, 2), (0, 1)]
      (by decide) (by decide)⟩

/-! ## Theorems: simplifier (claim C2) -/

theorem nodup_length_le {l₁ l₂ : List ℕ} (h₁ : l₁.Nodup)
    (hsub : ∀ a ∈ l₁, a ∈ l₂) : l₁.length ≤ l₂.length := by
  calc l₁.length = l₁.toFinset.card := (List.toFinset_card_of_nodup h₁).symm
    _ ≤ l₂.toFinset.card := by
        refine Finset.card_le_card fun a ha => ?_
        rw [List.mem_toFinset] at ha ⊢
        exact hsub a ha
    _ ≤ l₂.length := l₂.toFinset_card_le

theorem numTensors_contractPairAt_le (out : List ℕ) (tn : TNet) (a b : ℕ) :
    (contractPairAt out tn a b).numTensors ≤ tn.numTensors := by
  unfold contractPairAt TNet.numTensors
  by_cases h : a < b ∧ b < tn.tensors.length
  · rw [if_pos h]
    have ha : a < tn.tensors.length := lt_trans h.1 h.2
    simp only [List.length_cons]
    rw [List.length_eraseIdx]
    rw [List.length_eraseIdx_of_lt ha]
    split <;> omega
  · rw [if_neg h]

theorem mem_allIndsOf_contractPairAt (out : List ℕ) (tn : TNet) (a b : ℕ) :
    ∀ i ∈ (contractPairAt out tn a b).allInds, i ∈ tn.allInds := by
  intro i hi
  unfold contractPairAt at hi
  by_cases h : a < b ∧ b < tn.tensors.length
  · rw [if_pos h] at hi
    have ha : a < tn.tensors.length := lt_trans h.1 h.2
    have hrest : ∀ t, t ∈ (tn.tensors.eraseIdx a).eraseIdx (b - 1) →
        t ∈ tn.tensors := fun t ht =>
      (List.eraseIdx_sublist _ a).subset ((List.eraseIdx_sublist _ (b - 1)).subset ht)
    have hperm := tensors_perm_of_pair tn a b h
    simp only [TNet.allInds] at hi ⊢
    rcases mem_allIndsOf.mp hi with ⟨t, ht, hit⟩
    rcases List.mem_cons.mp ht with rfl | ht'
    · -- the merged tensor: its labels come from the two merged tensors
      have : i ∈ allIndsOf [tn.tensors.getD a defaultTensor,
          tn.tensors.getD b defaultTensor] := by
        have := hit
        simp only [mergeGroup, List.mem_filter] at this
        exact this.1
      rcases mem_allIndsOf.mp this with ⟨u, hu, hiu⟩
      refine mem_allIndsOf.mpr ⟨u, ?_, hiu⟩
      exact hperm.mem_iff.mpr (by
        rcases List.mem_cons.mp hu with rfl | hu'
        · exact List.mem_cons_self _ _
        · rcases List.mem_cons.mp hu' with rfl | hu''
          · exact List.mem_cons_of_mem _ (List.mem_cons_self _ _)
          · cases hu'')
    · exact mem_allIndsOf.mpr ⟨t, hrest t ht', hit⟩
  · rw [if_neg h] at hi
    exact hi

theorem numIndices_contractPairAt_le (out : List ℕ) (tn : TNet) (a b : ℕ) :
    (contractPairAt out tn a b).numIndices ≤ tn.numIndices := by
  unfold TNet.numIndices
  exact nodup_length_le (allIndsOf_nodup _)
    (mem_allIndsOf_contractPairAt out tn a b)

theorem map_mem_tuples (d : ℕ → ℕ) (ρ : Env) :
    ∀ (l : List ℕ), (∀ ix ∈ l, ρ ix < d ix) → l.map ρ ∈ tuples d l := by
  intro l
  induction l with
  | nil =>
    intro _
    simp [tuples]
  | cons ix l ih =>
    intro h
    simp only [tuples, List.map_cons, List.mem_flatten]
    refine ⟨(tuples d l).map (fun vs => ρ ix :: vs), ?_, ?_⟩
    · exact List.mem_map.mpr ⟨ρ ix,
        List.mem_range.mpr (h ix (List.mem_cons_self _ _)), rfl⟩
    · exact List.mem_map.mpr ⟨l.map ρ,
        ih (fun x hx => h x (List.mem_cons_of_mem _ hx)), rfl⟩

/-- The executable diagonality check is semantically sound: entries vanish on
every in-range environment where the two index values differ. -/
theorem isDiagOn_eval (d : ℕ → ℕ) (t : Tensor) (i j : ℕ)
    (hd : isDiagOn d t i j = true) (ρ : Env)
    (hrange : ∀ ix ∈ t.inds, ρ ix < d ix) (hne : ρ i ≠ ρ j)
    (hi : i ∈ t.inds) (hj : j ∈ t.inds) :
    t.eval ρ = 0 := by
  have hmem := map_mem_tuples d ρ t.inds hrange
  unfold isDiagOn at hd
  rw [List.all_eq_true] at hd
  have h := hd (t.inds.map ρ) hmem
  rw [Bool.or_eq_true, decide_eq_true_eq, decide_eq_true_eq,
    envOf_map _ _ hi, envOf_map _ _ hj] at h
  rcases h with h | h
  · exact absurd h hne
  · exact h

theorem diagReduceTensor_eval (t : Tensor) (i j : ℕ) (hi : i ∈ t.inds)
    (hij : i ≠ j) (ρ : Env) :
    (diagReduceTensor t i j).eval ρ =
      t.eval (Function.update ρ j (ρ i)) := by
  unfold diagReduceTensor Tensor.eval
  simp only
  congr 1
  refine List.map_congr_left fun ix hx => ?_
  by_cases hxj : ix = j
  · subst hxj
    rw [if_pos rfl, Function.update_same]
    exact envOf_map _ _ (List.mem_filter.mpr ⟨hi, by simp [hij]⟩)
  · rw [if_neg hxj, Function.update_noteq hxj]
    exact envOf_map _ _ (List.mem_filter.mpr ⟨hx, by simp [hxj]⟩)

theorem reindexTensor_eval (j i : ℕ) (u : Tensor) (ρ : Env) :
    (reindexTensor j i u).eval ρ = u.eval (Function.update ρ j (ρ i)) := by
  unfold reindexTensor Tensor.eval
  simp only
  rw [List.map_map]
  congr 1
  refine List.map_congr_left fun ix _ => ?_
  by_cases hxj : ix = j
  · subst hxj
    simp [Function.comp]
  · simp [Function.comp, hxj, Function.update_noteq hxj]

theorem prodEval_reindex (j i : ℕ) (ts : List Tensor) (ρ : Env) :
    prodEval (ts.map (reindexTensor j i)) ρ =
      prodEval ts (Function.update ρ j (ρ i)) := by
  unfold prodEval
  rw [List.map_map]
  refine congrArg List.prod (List.map_congr_left fun u _ => ?_)
  exact reindexTensor_eval j i u ρ

/-- The index labels after a diagonal reduction are exactly the old labels
minus the identified label `j`. -/
theorem mem_allIndsOf_diagNew (t : Tensor) (rest : List Tensor) (i j : ℕ)
    (hi : i ∈ t.inds) (hij : i ≠ j) (x : ℕ) :
    x ∈ allIndsOf (diagReduceTensor t i j :: rest.map (reindexTensor j i)) ↔
      (x ∈ allIndsOf (t :: rest) ∧ x ≠ j) := by
  constructor
  · intro hx
    rcases mem_allIndsOf.mp hx with ⟨u, hu, hxu⟩
    rcases List.mem_cons.mp hu with rfl | hu'
    · have hcase : x ∈ t.inds ∧ x ≠ j := by
        simpa [diagReduceTensor, List.mem_filter] using hxu
      exact ⟨mem_allIndsOf.mpr ⟨t, List.mem_cons_self _ _, hcase.1⟩, hcase.2⟩
    · rcases List.mem_map.mp hu' with ⟨u0, hu0, rfl⟩
      have hcase : ∃ ix ∈ u0.inds, (if ix = j then i else ix) = x := by
        simpa [reindexTensor] using hxu
      rcases hcase with ⟨ix, hix, hsub⟩
      by_cases hixj : ix = j
      · subst hixj
        rw [if_pos rfl] at hsub
        subst hsub
        exact ⟨mem_allIndsOf.mpr ⟨t, List.mem_cons_self _ _, hi⟩, hij⟩
      · rw [if_neg hixj] at hsub
        subst hsub
        exact ⟨mem_allIndsOf.mpr ⟨u0, List.mem_cons_of_mem _ hu0, hix⟩, hixj⟩
  · rintro ⟨hx, hxj⟩
    rcases mem_allIndsOf.mp hx with ⟨u, hu, hxu⟩
    rcases List.mem_cons.mp hu with rfl | hu'
    · refine mem_allIndsOf.mpr
        ⟨diagReduceTensor u i j, List.mem_cons_self _ _, ?_⟩
      simp only [diagReduceTensor, List.mem_filter]
      exact ⟨hxu, by simp [hxj]⟩
    · refine mem_allIndsOf.mpr ⟨reindexTensor j i u,
        List.mem_cons_of_mem _ (List.mem_map.mpr ⟨u, hu', rfl⟩), ?_⟩
      simp only [reindexTensor, List.mem_map]
      exact ⟨x, hxu, if_neg hxj⟩

/-- The diagonal/duplicate-index reduction rewrite preserves the value of
`contract(all, output_inds=out)`. -/
theorem value_diagStep (out : List ℕ) (tn : TNet) (k i j : ℕ) (σ : Env) :
    (diagStep out tn k i j).value out σ = tn.value out σ := by
  classical
  unfold diagStep
  by_cases hg : k < tn.tensors.length ∧ i ≠ j ∧
      i ∈ (tn.tensors.getD k defaultTensor).inds ∧
      j ∈ (tn.tensors.getD k defaultTensor).inds ∧
      (∀ ix ∈ (tn.tensors.getD k defaultTensor).inds, ¬ ix ∈ out) ∧
      tn.dims i = tn.dims j ∧
      isDiagOn tn.dims (tn.tensors.getD k defaultTensor) i j = true
  · rw [if_pos hg]
    obtain ⟨hk, hij, hi, hj, hout, hdims, hdiag⟩ := hg
    set t := tn.tensors.getD k defaultTensor with htdef
    set rest := tn.tensors.eraseIdx k with hrestdef
    have hperm0 : tn.tensors.Perm (t :: rest) :=
      perm_getD_eraseIdx defaultTensor tn.tensors k hk
    have hold : tn.value out σ = TNet.value ⟨tn.dims, t :: rest⟩ out σ :=
      TNet.value_perm tn.dims hperm0 out σ
    rw [hold]
    have hI2 : ∀ x, x ∈ allIndsOf
        (diagReduceTensor t i j :: rest.map (reindexTensor j i)) ↔
        (x ∈ allIndsOf (t :: rest) ∧ x ≠ j) :=
      mem_allIndsOf_diagNew t rest i j hi hij
    have hjI : j ∈ allIndsOf (t :: rest) :=
      mem_allIndsOf.mpr ⟨t, List.mem_cons_self _ _, hj⟩
    have hLperm : ((allIndsOf
        (diagReduceTensor t i j :: rest.map (reindexTensor j i))).filter
          (fun x => ¬ x ∈ out)).Perm
        (((allIndsOf (t :: rest)).filter (fun x => ¬ x ∈ out)).erase j) := by
      refine (List.perm_ext_iff_of_nodup ((allIndsOf_nodup _).filter _)
        (((allIndsOf_nodup _).filter _).erase j)).mpr fun x => ?_
      rw [List.Nodup.mem_erase_iff (((allIndsOf_nodup _)).filter _)]
      simp only [List.mem_filter, hI2, decide_eq_true_eq]
      constructor
      · rintro ⟨⟨hxI, hxj⟩, hxo⟩
        exact ⟨hxj, hxI, hxo⟩
      · rintro ⟨hxj, hxI, hxo⟩
        exact ⟨⟨hxI, hxj⟩, hxo⟩
    have hLperm2 : ((allIndsOf (t :: rest)).filter
        (fun x => ¬ x ∈ out)).Perm
        ((((allIndsOf (t :: rest)).filter (fun x => ¬ x ∈ out)).erase j)
          ++ [j]) := by
      have hjL : j ∈ (allIndsOf (t :: rest)).filter (fun x => ¬ x ∈ out) :=
        List.mem_filter.mpr ⟨hjI, by simp [hout j hj]⟩
      have h1 := List.perm_cons_erase hjL
      refine h1.trans ?_
      have h2 := List.perm_append_singleton j
        (((allIndsOf (t :: rest)).filter (fun x => ¬ x ∈ out)).erase j)
      exact h2.symm
    simp only [TNet.value, TNet.allInds]
    rw [sumOver_perm tn.dims hLperm, sumOver_perm tn.dims hLperm2,
      sumOver_append]
    refine sumOver_congr_inRange tn.dims _ _ _ σ fun ρ hin _ => ?_
    have hsum1 : sumOver tn.dims [j]
        (fun τ => prodEval (t :: rest) τ) ρ =
        ∑ vj ∈ Finset.range (tn.dims j),
          prodEval (t :: rest) (Function.update ρ j vj) := by
      simp [sumOver]
    rw [hsum1]
    have hmemL2 : ∀ x, x ∈ allIndsOf (t :: rest) → ¬ x ∈ out → x ≠ j →
        ρ x < tn.dims x := by
      intro x hxI hxo hxj
      refine hin x ?_
      rw [List.Nodup.mem_erase_iff ((allIndsOf_nodup _).filter _)]
      exact ⟨hxj, List.mem_filter.mpr ⟨hxI, by simp [hxo]⟩⟩
    have hiρ : ρ i < tn.dims i :=
      hmemL2 i (mem_allIndsOf.mpr ⟨t, List.mem_cons_self _ _, hi⟩)
        (hout i hi) hij
    have hvanish : ∀ vj ∈ Finset.range (tn.dims j), vj ≠ ρ i →
        prodEval (t :: rest) (Function.update ρ j vj) = 0 := by
      intro vj hvj hne
      rw [prodEval_cons]
      have hzero : t.eval (Function.update ρ j vj) = 0 := by
        refine isDiagOn_eval tn.dims t i j hdiag _ ?_ ?_ hi hj
        · intro ix hx
          by_cases hxj : ix = j
          · subst hxj
            rw [Function.update_same]
            exact Finset.mem_range.mp hvj
          · rw [Function.update_noteq hxj]
            exact hmemL2 ix
              (mem_allIndsOf.mpr ⟨t, List.mem_cons_self _ _, hx⟩)
              (hout ix hx) hxj
        · rw [Function.update_noteq hij, Function.update_same]
          exact fun hc => hne hc.symm
      rw [hzero, zero_mul]
    have hmem : ρ i ∈ Finset.range (tn.dims j) := by
      rw [← hdims]
      exact Finset.mem_range.mpr hiρ
    rw [Finset.sum_eq_single_of_mem (ρ i) hmem hvanish]
    rw [prodEval_cons, prodEval_cons,
      diagReduceTensor_eval t i j hi hij ρ, prodEval_reindex j i rest ρ]
  · rw [if_neg hg]

theorem numTensors_diagStep_le (out : List ℕ) (tn : TNet) (k i j : ℕ) :
    (diagStep out tn k i j).numTensors ≤ tn.numTensors := by
  unfold diagStep
  by_cases hg : k < tn.tensors.length ∧ i ≠ j ∧
      i ∈ (tn.tensors.getD k defaultTensor).inds ∧
      j ∈ (tn.tensors.getD k defaultTensor).inds ∧
      (∀ ix ∈ (tn.tensors.getD k defaultTensor).inds, ¬ ix ∈ out) ∧
      tn.dims i = tn.dims j ∧
      isDiagOn tn.dims (tn.tensors.getD k defaultTensor) i j = true
  · rw [if_pos hg]
    simp only [TNet.numTensors, List.length_cons, List.length_map]
    rw [List.length_eraseIdx_of_lt hg.1]
    omega
  · rw [if_neg hg]

theorem numIndices_diagStep_le (out : List ℕ) (tn : TNet) (k i j : ℕ) :
    (diagStep out tn k i j).numIndices ≤ tn.numIndices := by
  unfold diagStep
  by_cases hg : k < tn.tensors.length ∧ i ≠ j ∧
      i ∈ (tn.tensors.getD k defaultTensor).inds ∧
      j ∈ (tn.tensors.getD k defaultTensor).inds ∧
      (∀ ix ∈ (tn.tensors.getD k defaultTensor).inds, ¬ ix ∈ out) ∧
      tn.dims i = tn.dims j ∧
      isDiagOn tn.dims (tn.tensors.getD k defaultTensor) i j = true
  · rw [if_pos hg]
    obtain ⟨hk, hij, hi, hj, _, _, _⟩ := hg
    simp only [TNet.numIndices, TNet.allInds]
    refine nodup_length_le (allIndsOf_nodup _) fun x hx => ?_
    have h1 := (mem_allIndsOf_diagNew (tn.tensors.getD k defaultTensor)
      (tn.tensors.eraseIdx k) i j hi hij x).mp hx
    rcases mem_allIndsOf.mp h1.1 with ⟨u, hu, hxu⟩
    have hperm0 := perm_getD_eraseIdx defaultTensor tn.tensors k hk
    exact mem_allIndsOf.mpr ⟨u, hperm0.mem_iff.mpr hu, hxu⟩
  · rw [if_neg hg]

theorem deltaTensor_eval (h h2 : ℕ) (ρ : Env) :
    (deltaTensor h h2).eval ρ = if ρ h = ρ h2 then 1 else 0 := rfl

/-- The index labels after a hyperindex resolution are the old labels plus
the fresh copy `h2`. -/
theorem mem_allIndsOf_hyperNew (t : Tensor) (rest : List Tensor) (h h2 : ℕ)
    (hh : h ∈ t.inds) (x : ℕ) :
    x ∈ allIndsOf (deltaTensor h h2 :: reindexTensor h h2 t :: rest) ↔
      (x ∈ allIndsOf (t :: rest) ∨ x = h2) := by
  constructor
  · intro hx
    rcases mem_allIndsOf.mp hx with ⟨u, hu, hxu⟩
    rcases List.mem_cons.mp hu with rfl | hu'
    · rcases List.mem_cons.mp hxu with rfl | hxu'
      · exact Or.inl (mem_allIndsOf.mpr ⟨t, List.mem_cons_self _ _, hh⟩)
      · rcases List.mem_singleton.mp hxu' with rfl
        exact Or.inr rfl
    · rcases List.mem_cons.mp hu' with rfl | hu''
      · have hcase : ∃ ix ∈ t.inds, (if ix = h then h2 else ix) = x := by
          simpa [reindexTensor] using hxu
        rcases hcase with ⟨ix, hix, hsub⟩
        by_cases hixh : ix = h
        · subst hixh
          rw [if_pos rfl] at hsub
          exact Or.inr hsub.symm
        · rw [if_neg hixh] at hsub
          subst hsub
          exact Or.inl (mem_allIndsOf.mpr ⟨t, List.mem_cons_self _ _, hix⟩)
      · exact Or.inl
          (mem_allIndsOf.mpr ⟨u, List.mem_cons_of_mem _ hu'', hxu⟩)
  · intro hcase
    rcases hcase with hx | hx2
    · rcases mem_allIndsOf.mp hx with ⟨u, hu, hxu⟩
      rcases List.mem_cons.mp hu with rfl | hu'
      · by_cases hxh : x = h
        · refine mem_allIndsOf.mpr
            ⟨deltaTensor h h2, List.mem_cons_self _ _, ?_⟩
          rw [hxh]
          exact List.mem_cons_self _ _
        · refine mem_allIndsOf.mpr ⟨reindexTensor h h2 u,
            List.mem_cons_of_mem _ (List.mem_cons_self _ _), ?_⟩
          simp only [reindexTensor, List.mem_map]
          exact ⟨x, hxu, if_neg hxh⟩
      · exact mem_allIndsOf.mpr ⟨u,
          List.mem_cons_of_mem _ (List.mem_cons_of_mem _ hu'), hxu⟩
    · rw [hx2]
      exact mem_allIndsOf.mpr ⟨deltaTensor h h2, List.mem_cons_self _ _,
        List.mem_cons_of_mem _ (List.mem_singleton_self _)⟩

/-- Hyperindex resolution preserves the value of
`contract(all, output_inds=out)` whenever the split index and its fresh copy
are internal. -/
theorem value_hyperResolve (tn : TNet) (k h h2 : ℕ) (out : List ℕ) (σ : Env)
    (hout1 : ¬ h ∈ out) (hout2 : ¬ h2 ∈ out) :
    (hyperResolve tn k h h2).value out σ = tn.value out σ := by
  classical
  unfold hyperResolve
  by_cases hg : k < tn.tensors.length ∧
      h ∈ (tn.tensors.getD k defaultTensor).inds ∧
      ¬ h2 ∈ tn.allInds ∧ tn.dims h2 = tn.dims h ∧
      3 ≤ tn.tensors.countP (fun t => h ∈ t.inds)
  · rw [if_pos hg]
    obtain ⟨hk, hh, hfresh, hdims, _⟩ := hg
    set t := tn.tensors.getD k defaultTensor with htdef
    set rest := tn.tensors.eraseIdx k with hrestdef
    have hperm0 : tn.tensors.Perm (t :: rest) :=
      perm_getD_eraseIdx defaultTensor tn.tensors k hk
    have hold : tn.value out σ = TNet.value ⟨tn.dims, t :: rest⟩ out σ :=
      TNet.value_perm tn.dims hperm0 out σ
    rw [hold]
    have hI2 : ∀ x,
        x ∈ allIndsOf (deltaTensor h h2 :: reindexTensor h h2 t :: rest) ↔
        (x ∈ allIndsOf (t :: rest) ∨ x = h2) :=
      mem_allIndsOf_hyperNew t rest h h2 hh
    have hfresh' : ¬ h2 ∈ allIndsOf (t :: rest) := by
      intro hc
      rcases mem_allIndsOf.mp hc with ⟨u, hu, hxu⟩
      exact hfresh (mem_allIndsOf.mpr ⟨u, hperm0.mem_iff.mpr hu, hxu⟩)
    have hhI : h ∈ allIndsOf (t :: rest) :=
      mem_allIndsOf.mpr ⟨t, List.mem_cons_self _ _, hh⟩
    have hne : h ≠ h2 := fun hc => hfresh' (hc ▸ hhI)
    have hLperm : ((allIndsOf
        (deltaTensor h h2 :: reindexTensor h h2 t :: rest)).filter
          (fun x => ¬ x ∈ out)).Perm
        (((allIndsOf (t :: rest)).filter (fun x => ¬ x ∈ out)) ++ [h2]) := by
      refine (List.perm_ext_iff_of_nodup ((allIndsOf_nodup _).filter _)
        ?_).mpr fun x => ?_
      · refine List.Nodup.append ((allIndsOf_nodup _).filter _)
          (List.nodup_singleton h2) fun x hx1 hx2 => ?_
        rcases List.mem_singleton.mp hx2 with rfl
        exact hfresh' (List.mem_filter.mp hx1).1
      · simp only [List.mem_append, List.mem_filter, List.mem_singleton,
          hI2, decide_eq_true_eq]
        constructor
        · rintro ⟨hx | rfl, hxo⟩
          · exact Or.inl ⟨hx, hxo⟩
          · exact Or.inr rfl
        · rintro (⟨hx, hxo⟩ | rfl)
          · exact ⟨Or.inl hx, hxo⟩
          · exact ⟨Or.inr rfl, hout2⟩
    simp only [TNet.value, TNet.allInds]
    rw [sumOver_perm tn.dims hLperm, sumOver_append]
    refine sumOver_congr_inRange tn.dims _ _ _ σ fun ρ hin _ => ?_
    have hsum1 : sumOver tn.dims [h2]
        (fun τ => prodEval (deltaTensor h h2 :: reindexTensor h h2 t :: rest)
          τ) ρ =
        ∑ v2 ∈ Finset.range (tn.dims h2),
          prodEval (deltaTensor h h2 :: reindexTensor h h2 t :: rest)
            (Function.update ρ h2 v2) := by
      simp [sumOver]
    rw [hsum1]
    have hρh : ρ h < tn.dims h :=
      hin h (List.mem_filter.mpr ⟨hhI, by simp [hout1]⟩)
    have hterm : ∀ v2 ∈ Finset.range (tn.dims h2),
        prodEval (deltaTensor h h2 :: reindexTensor h h2 t :: rest)
          (Function.update ρ h2 v2) =
        (if ρ h = v2 then (1 : ℚ) else 0) *
          (t.eval (Function.update ρ h v2) * prodEval rest ρ) := by
      intro v2 _
      rw [prodEval_cons, prodEval_cons, deltaTensor_eval,
        reindexTensor_eval]
      rw [Function.update_noteq hne, Function.update_same]
      have e3 : t.eval (Function.update (Function.update ρ h2 v2) h v2) =
          t.eval (Function.update ρ h v2) := by
        refine t.eval_dependsOn _ _ fun ix hix => ?_
        by_cases hixh : ix = h
        · rw [hixh, Function.update_same, Function.update_same]
        · have hxh2 : ix ≠ h2 := fun hc =>
            hfresh' (hc ▸ mem_allIndsOf.mpr ⟨t, List.mem_cons_self _ _, hix⟩)
          rw [Function.update_noteq hixh, Function.update_noteq hixh,
            Function.update_noteq hxh2]
      have e4 : prodEval rest (Function.update ρ h2 v2) =
          prodEval rest ρ := by
        refine prodEval_dependsOn rest _ _ fun ix hix => ?_
        have hxh2 : ix ≠ h2 := fun hc => by
          rcases mem_allIndsOf.mp hix with ⟨u, hu, hxu⟩
          exact hfresh' (hc ▸ mem_allIndsOf.mpr
            ⟨u, List.mem_cons_of_mem _ hu, hxu⟩)
        exact Function.update_noteq hxh2 _ _
      rw [e3, e4]
    rw [Finset.sum_congr rfl hterm]
    have hmem : ρ h ∈ Finset.range (tn.dims h2) := by
      rw [hdims]
      exact Finset.mem_range.mpr hρh
    have hvanish : ∀ v2 ∈ Finset.range (tn.dims h2), v2 ≠ ρ h →
        (if ρ h = v2 then (1 : ℚ) else 0) *
          (t.eval (Function.update ρ h v2) * prodEval rest ρ) = 0 := by
      intro v2 _ hne2
      rw [if_neg fun hc => hne2 hc.symm, zero_mul]
    rw [Finset.sum_eq_single_of_mem (ρ h) hmem hvanish]
    rw [if_pos rfl, one_mul, Function.update_eq_self, prodEval_cons]
  · rw [if_neg hg]

theorem simplifyStep_value (cap : ℕ) (out : List ℕ) (tn : TNet)
    (s : SimpRewrite) (σ : Env) :
    (simplifyStep cap out tn s).value out σ = tn.value out σ := by
  cases s with
  | mergePair a b =>
    simp only [simplifyStep]
    split
    · exact value_contractPairAt out tn a b σ
    · rfl
  | absorbScalar a b =>
    simp only [simplifyStep]
    split
    · exact value_contractPairAt out tn a b σ
    · rfl
  | diagReduce k i j => exact value_diagStep out tn k i j σ

theorem simplifyStep_numTensors (cap : ℕ) (out : List ℕ) (tn : TNet)
    (s : SimpRewrite) :
    (simplifyStep cap out tn s).numTensors ≤ tn.numTensors := by
  cases s with
  | mergePair a b =>
    simp only [simplifyStep]
    split
    · exact numTensors_contractPairAt_le out tn a b
    · exact le_refl _
  | absorbScalar a b =>
    simp only [simplifyStep]
    split
    · exact numTensors_contractPairAt_le out tn a b
    · exact le_refl _
  | diagReduce k i j => exact numTensors_diagStep_le out tn k i j

theorem simplifyStep_numIndices (cap : ℕ) (out : List ℕ) (tn : TNet)
    (s : SimpRewrite) :
    (simplifyStep cap out tn s).numIndices ≤ tn.numIndices := by
  cases s with
  | mergePair a b =>
    simp only [simplifyStep]
    split
    · exact numIndices_contractPairAt_le out tn a b
    · exact le_refl _
  | absorbScalar a b =>
    simp only [simplifyStep]
    split
    · exact numIndices_contractPairAt_le out tn a b
    · exact le_refl _
  | diagReduce k i j => exact numIndices_diagStep_le out tn k i j

theorem full_simplify_general (cap : ℕ) (out : List ℕ)
    (passes : List SimpRewrite) : ∀ (tn : TNet) (σ : Env),
    (full_simplify cap out tn passes).value out σ = tn.value out σ ∧
    (full_simplify cap out tn passes).numTensors ≤ tn.numTensors ∧
    (full_simplify cap out tn passes).numIndices ≤ tn.numIndices := by
  induction passes with
  | nil => exact fun tn σ => ⟨rfl, le_refl _, le_refl _⟩
  | cons s p ih =>
    intro tn σ
    have hstep := ih (simplifyStep cap out tn s) σ
    refine ⟨hstep.1.trans (simplifyStep_value cap out tn s σ),
      hstep.2.1.trans (simplifyStep_numTensors cap out tn s),
      hstep.2.2.trans (simplifyStep_numIndices cap out tn s)⟩

/-- C2: `full_simplify()` preserves the value of
`contract(all, output_inds = original outer indices)` and never increases
`num_tensors` or `num_indices`, whatever sequence of configured rewrites the
simplification loop applies: capped pairwise rank-simplification merges,
scalar absorption, and diagonal/duplicate-index reduction (whose index
renaming is what creates hyperindices, forcing output_inds at the final
contraction). -/
theorem full_simplify_correct (tn : TNet) (cap : ℕ)
    (passes : List SimpRewrite) (σ : Env) :
    (full_simplify cap tn.outerInds tn passes).value tn.outerInds σ =
      tn.value tn.outerInds σ ∧
    (full_simplify cap tn.outerInds tn passes).numTensors ≤ tn.numTensors ∧
    (full_simplify cap tn.outerInds tn passes).numIndices ≤ tn.numIndices :=
  full_simplify_general cap tn.outerInds passes tn σ

/-! ## Theorems: 2D boundary environments (claim C5) -/

/-- A list splits, up to permutation, into three mutually exclusive,
covering filtered parts. -/
theorem perm_three_filter {α : Type} (p q r : α → Bool) (l : List α)
    (hcover : ∀ x, (p x = true ∧ q x = false ∧ r x = false) ∨
      (p x = false ∧ q x = true ∧ r x = false) ∨
      (p x = false ∧ q x = false ∧ r x = true)) :
    l.Perm (l.filter p ++ l.filter q ++ l.filter r) := by
  induction l with
  | nil => simp
  | cons x l ih =>
    rcases hcover x with ⟨h1, h2, h3⟩ | ⟨h1, h2, h3⟩ | ⟨h1, h2, h3⟩
    · simp only [List.filter_cons, h1, h2, h3, if_true, if_false,
        Bool.false_eq_true, List.cons_append]
      exact ih.cons x
    · simp only [List.filter_cons, h1, h2, h3, Bool.false_eq_true, if_false,
        if_true]
      have hmid : (l.filter p ++ x :: l.filter q ++ l.filter r) =
          l.filter p ++ (x :: (l.filter q ++ l.filter r)) := by
        simp [List.append_assoc]
      rw [hmid]
      refine (ih.cons x).trans ?_
      have he : l.filter p ++ l.filter q ++ l.filter r =
          l.filter p ++ (l.filter q ++ l.filter r) := by
        rw [List.append_assoc]
      rw [he]
      exact List.perm_middle.symm
    · simp only [List.filter_cons, h1, h2, h3, Bool.false_eq_true, if_false,
        if_true]
      refine (ih.cons x).trans ?_
      exact List.perm_middle.symm

/-- Sandwiching a middle slab between the exact boundary contractions of the
lower and upper parts reproduces the full contraction value. -/
theorem value_env_sandwich (d : ℕ → ℕ) (low mid high : List Tensor)
    (σ : Env) :
    TNet.value ⟨d, mergeGroup d low (allIndsOf (mid ++ high)) ::
        (mid ++ [mergeGroup d high (allIndsOf (low ++ mid))])⟩ [] σ =
      TNet.value ⟨d, low ++ mid ++ high⟩ [] σ := by
  have hkeepHigh : ∀ i ∈ allIndsOf high,
      (i ∈ allIndsOf (low ++ mid) ↔ i ∈ allIndsOf (low ++ mid) ∨
        i ∈ ([] : List ℕ)) := by
    intro i _
    simp
  have hA := value_mergeGroup d high (low ++ mid) (allIndsOf (low ++ mid))
    [] hkeepHigh σ
  have hkeepLow : ∀ i ∈ allIndsOf low,
      (i ∈ allIndsOf (mid ++ high) ↔
        i ∈ allIndsOf (mid ++ [mergeGroup d high (allIndsOf (low ++ mid))]) ∨
          i ∈ ([] : List ℕ)) := by
    intro i hiLow
    simp only [allIndsOf_append, List.mem_nil_iff, or_false]
    have hEnvInds : ∀ k, k ∈ allIndsOf [mergeGroup d high
        (allIndsOf (low ++ mid))] ↔
        k ∈ allIndsOf high ∧ (k ∈ allIndsOf low ∨ k ∈ allIndsOf mid) := by
      intro k
      constructor
      · intro hk
        rcases mem_allIndsOf.mp hk with ⟨t, ht, hkt⟩
        rcases List.mem_singleton.mp ht with rfl
        simp only [mergeGroup, List.mem_filter, decide_eq_true_eq] at hkt
        exact ⟨hkt.1, allIndsOf_append.mp hkt.2⟩
      · intro ⟨hk1, hk2⟩
        refine mem_allIndsOf.mpr ⟨_, List.mem_singleton_self _, ?_⟩
        simp only [mergeGroup, List.mem_filter, decide_eq_true_eq]
        exact ⟨hk1, allIndsOf_append.mpr hk2⟩
    rw [hEnvInds]
    constructor
    · rintro (h | h)
      · exact Or.inl h
      · exact Or.inr ⟨h, Or.inl hiLow⟩
    · rintro (h | ⟨h, _⟩)
      · exact Or.inl h
      · exact Or.inr h
  have hB := value_mergeGroup d low
    (mid ++ [mergeGroup d high (allIndsOf (low ++ mid))])
    (allIndsOf (mid ++ high)) [] hkeepLow σ
  refine hB.trans ?_
  have hperm1 : (low ++ (mid ++ [mergeGroup d high (allIndsOf (low ++ mid))])).Perm
      (mergeGroup d high (allIndsOf (low ++ mid)) :: (low ++ mid)) := by
    have he : low ++ (mid ++ [mergeGroup d high (allIndsOf (low ++ mid))]) =
        (low ++ mid) ++ [mergeGroup d high (allIndsOf (low ++ mid))] := by
      rw [List.append_assoc]
    rw [he]
    exact List.perm_append_singleton _ _
  refine (TNet.value_perm d hperm1 [] σ).trans ?_
  refine hA.trans ?_
  have hperm2 : (high ++ (low ++ mid)).Perm (low ++ mid ++ high) :=
    List.perm_append_comm
  exact TNet.value_perm d hperm2 [] σ

theorem grid_rows_perm (g : Grid) (i : ℕ) :
    (g.sites.map Sited.ten).Perm
      (belowTensors g i ++ rowTensors g i ++ aboveTensors g i) := by
  have hcover : ∀ s : Sited,
      ((decide (s.row < i)) = true ∧ (decide (s.row = i)) = false ∧
        (decide (i < s.row)) = false) ∨
      ((decide (s.row < i)) = false ∧ (decide (s.row = i)) = true ∧
        (decide (i < s.row)) = false) ∨
      ((decide (s.row < i)) = false ∧ (decide (s.row = i)) = false ∧
        (decide (i < s.row)) = true) := by
    intro s
    rcases Nat.lt_trichotomy s.row i with h | h | h
    · exact Or.inl (by simp [h, Nat.lt_asymm h, Nat.ne_of_lt h])
    · exact Or.inr (Or.inl (by simp [h]))
    · exact Or.inr (Or.inr (by simp [h, Nat.lt_asymm h,
        (Nat.ne_of_lt h).symm]))
  have hperm := perm_three_filter (fun s => decide (s.row < i))
    (fun s => decide (s.row = i)) (fun s => decide (i < s.row)) g.sites hcover
  have := hperm.map Sited.ten
  simpa [belowTensors, rowTensors, aboveTensors, List.map_append] using this

theorem grid_cols_perm (g : Grid) (j : ℕ) :
    (g.sites.map Sited.ten).Perm
      (leftTensors g j ++ colTensors g j ++ rightTensors g j) := by
  have hcover : ∀ s : Sited,
      ((decide (s.col < j)) = true ∧ (decide (s.col = j)) = false ∧
        (decide (j < s.col)) = false) ∨
      ((decide (s.col < j)) = false ∧ (decide (s.col = j)) = true ∧
        (decide (j < s.col)) = false) ∨
      ((decide (s.col < j)) = false ∧ (decide (s.col = j)) = false ∧
        (decide (j < s.col)) = true) := by
    intro s
    rcases Nat.lt_trichotomy s.col j with h | h | h
    · exact Or.inl (by simp [h, Nat.lt_asymm h, Nat.ne_of_lt h])
    · exact Or.inr (Or.inl (by simp [h]))
    · exact Or.inr (Or.inr (by simp [h, Nat.lt_asymm h,
        (Nat.ne_of_lt h).symm]))
  have hperm := perm_three_filter (fun s => decide (s.col < j))
    (fun s => decide (s.col = j)) (fun s => decide (j < s.col)) g.sites hcover
  have := hperm.map Sited.ten
  simpa [leftTensors, colTensors, rightTensors, List.map_append] using this

/-- C5: for every row `i`, contracting the environment below `i`, the tensors
of row `i` and the environment above `i` reproduces the full network
contraction value; dually for every column `j` with the left and right
environments (exactly, in this rational model where the boundary compression
is lossless). -/
theorem compute_environments_reconstruct (g : Grid) (i j : ℕ) (σ : Env) :
    TNet.value ⟨g.dims, rowEnvBelow g i ::
        (rowTensors g i ++ [rowEnvAbove g i])⟩ [] σ = g.net.value [] σ ∧
    TNet.value ⟨g.dims, colEnvLeft g j ::
        (colTensors g j ++ [colEnvRight g j])⟩ [] σ = g.net.value [] σ := by
  constructor
  · refine (value_env_sandwich g.dims (belowTensors g i) (rowTensors g i)
      (aboveTensors g i) σ).trans ?_
    have := TNet.value_perm g.dims (grid_rows_perm g i).symm [] σ
    simpa [Grid.net, TNet.value] using this
  · refine (value_env_sandwich g.dims (leftTensors g j) (colTensors g j)
      (rightTensors g j) σ).trans ?_
    have := TNet.value_perm g.dims (grid_cols_perm g j).symm [] σ
    simpa [Grid.net, TNet.value] using this

/-! ## Theorems: circuit amplitudes versus dense state (claim C8) -/

theorem basisBra_eval (q b : ℕ) (ρ : Env) :
    (basisBra q b).eval ρ = if ρ q = b then 1 else 0 := by
  simp [basisBra, Tensor.eval]

theorem mem_allIndsOf_zipWith_basisBra :
    ∀ (qs bs : List ℕ) {i : ℕ},
      i ∈ allIndsOf (List.zipWith basisBra qs bs) → i ∈ qs := by
  intro qs
  induction qs with
  | nil =>
    intro bs i h
    simp [allIndsOf] at h
  | cons q qs ih =>
    intro bs i h
    cases bs with
    | nil => simp [allIndsOf] at h
    | cons b bs =>
      rw [List.zipWith_cons_cons] at h
      rcases mem_allIndsOf.mp h with ⟨t, ht, hit⟩
      rcases List.mem_cons.mp ht with rfl | ht'
      · rcases List.mem_singleton.mp hit with rfl
        exact List.mem_cons_self _ _
      · exact List.mem_cons_of_mem _
          (ih bs (mem_allIndsOf.mpr ⟨t, ht', hit⟩))

/-- Summing all qubit labels against the corresponding basis bras is the same
as evaluating at the fixed bit values. -/
theorem sumOver_close_deltas (d : ℕ → ℕ) :
    ∀ (qs bs : List ℕ) (F : Env → ℚ), qs.Nodup → bs.length = qs.length →
      (∀ p ∈ qs.zip bs, p.2 < d p.1) → ∀ σ : Env,
      sumOver d qs
        (fun ρ => F ρ * prodEval (List.zipWith basisBra qs bs) ρ) σ =
      F (multiUpdate σ qs bs) := by
  intro qs
  induction qs with
  | nil =>
    intro bs F _ hlen _ σ
    rcases List.length_eq_zero.mp hlen with rfl
    simp [sumOver, prodEval, multiUpdate]
  | cons q qs ih =>
    intro bs F hnd hlen hbound σ
    cases bs with
    | nil => simp at hlen
    | cons b bs =>
      have hq_not : q ∉ qs := (List.nodup_cons.mp hnd).1
      have hnd' : qs.Nodup := (List.nodup_cons.mp hnd).2
      have hlen' : bs.length = qs.length := by simpa using hlen
      have hbound' : ∀ p ∈ qs.zip bs, p.2 < d p.1 := by
        intro p hp
        refine hbound p ?_
        rw [List.zip_cons_cons]
        exact List.mem_cons_of_mem _ hp
      have hb : b < d q := by
        have hmem : (q, b) ∈ (q :: qs).zip (b :: bs) := by
          rw [List.zip_cons_cons]
          exact List.mem_cons_self _ _
        exact hbound (q, b) hmem
      simp only [sumOver]
      have hstep : ∀ v, sumOver d qs
          (fun ρ => F ρ *
            prodEval (List.zipWith basisBra (q :: qs) (b :: bs)) ρ)
          (Function.update σ q v) =
          sumOver d qs
            (fun ρ => F ρ * prodEval (List.zipWith basisBra qs bs) ρ)
            (Function.update σ q v) * (if v = b then 1 else 0) := by
        intro v
        have h1 : ∀ ρ : Env, F ρ *
            prodEval (List.zipWith basisBra (q :: qs) (b :: bs)) ρ =
            (F ρ * prodEval (List.zipWith basisBra qs bs) ρ) *
              (basisBra q b).eval ρ := by
          intro ρ
          rw [List.zipWith_cons_cons, prodEval_cons]
          ring
        rw [sumOver_congr_fun d qs _ _ _ h1]
        rw [sumOver_mul_indep d qs _ _ (basisBra q b).inds
          ((basisBra q b).eval_dependsOn)
          (fun i hi hmem => by
            have : i = q := by simpa [basisBra] using hmem
            exact hq_not (this ▸ hi))]
        rw [basisBra_eval]
        simp [Function.update_same]
      rw [Finset.sum_congr rfl fun v _ => hstep v]
      simp only [mul_ite, mul_one, mul_zero]
      rw [Finset.sum_ite_eq' (Finset.range (d q)) b]
      rw [if_pos (Finset.mem_range.mpr hb)]
      exact ih bs _ hnd' hlen' hbound' (Function.update σ q b)

/-- Closing the open labels `qs` of a network by basis bras and contracting
to a scalar equals contracting with `qs` as output indices and reading the
entry at the bit values. -/
theorem value_closed_eq_entry (d : ℕ → ℕ) (ts : List Tensor)
    (qs bits : List ℕ) (hnd : qs.Nodup)
    (hsub : ∀ q ∈ qs, q ∈ allIndsOf ts)
    (hlen : bits.length = qs.length)
    (hbound : ∀ p ∈ qs.zip bits, p.2 < d p.1) :
    TNet.value ⟨d, ts ++ List.zipWith basisBra qs bits⟩ [] (fun _ => 0) =
    TNet.value ⟨d, ts⟩ qs (multiUpdate (fun _ => 0) qs bits) := by
  classical
  simp only [TNet.value, TNet.allInds]
  have hfilter : (allIndsOf (ts ++ List.zipWith basisBra qs bits)).filter
      (fun i => ¬ i ∈ ([] : List ℕ)) =
      allIndsOf (ts ++ List.zipWith basisBra qs bits) := by
    refine List.filter_eq_self.mpr fun a _ => by simp
  rw [hfilter]
  set rest := (allIndsOf ts).filter (fun i => ¬ i ∈ qs) with hrest
  have hrestMem : ∀ i, i ∈ rest ↔ i ∈ allIndsOf ts ∧ ¬ i ∈ qs := by
    intro i; simp [hrest, List.mem_filter]
  have hperm : (allIndsOf (ts ++ List.zipWith basisBra qs bits)).Perm
      (qs ++ rest) := by
    refine (List.perm_ext_iff_of_nodup (allIndsOf_nodup _) ?_).mpr fun a => ?_
    · refine List.Nodup.append hnd ((allIndsOf_nodup ts).filter _)
        fun a haq har => ?_
      exact ((hrestMem a).mp har).2 haq
    · rw [List.mem_append, allIndsOf_append, hrestMem]
      constructor
      · rintro (h | h)
        · by_cases haq : a ∈ qs
          · exact Or.inl haq
          · exact Or.inr ⟨h, haq⟩
        · exact Or.inl (mem_allIndsOf_zipWith_basisBra qs bits h)
      · rintro (h | ⟨h, _⟩)
        · exact Or.inl (hsub a h)
        · exact Or.inl h
  rw [sumOver_perm d hperm, sumOver_append]
  have hinner : ∀ ρ : Env,
      sumOver d rest
        (fun τ => prodEval (ts ++ List.zipWith basisBra qs bits) τ) ρ =
      sumOver d rest (fun τ => prodEval ts τ) ρ *
        prodEval (List.zipWith basisBra qs bits) ρ := by
    intro ρ
    rw [sumOver_congr_fun d rest _
      (fun τ => prodEval ts τ * prodEval (List.zipWith basisBra qs bits) τ)
      ρ (fun τ => prodEval_append _ _ τ)]
    exact sumOver_mul_indep d rest _ _ _
      (prodEval_dependsOn (List.zipWith basisBra qs bits))
      (fun i hi hmem =>
        ((hrestMem i).mp hi).2 (mem_allIndsOf_zipWith_basisBra qs bits hmem)) ρ
  rw [sumOver_congr_fun d qs _ _ _ hinner]
  exact sumOver_close_deltas d qs bits _ hnd hlen hbound (fun _ => 0)

/-- C8: for every circuit and every in-range bitstring over its qubits, the
lazily contracted tensor-network amplitude `circ.amplitude(b)` equals the
entry at position `b` of the dense state `circ.to_dense()`. -/
theorem circuit_amplitude_eq_dense_entry (c : Circuit) (bits : List ℕ)
    (hnd : c.qubits.Nodup)
    (hsub : ∀ q ∈ c.qubits, q ∈ c.net.allInds)
    (hlen : bits.length = c.qubits.length)
    (hbound : ∀ p ∈ c.qubits.zip bits, p.2 < c.net.dims p.1) :
    c.amplitude bits = c.denseEntry bits :=
  value_closed_eq_entry c.net.dims c.net.tensors c.qubits bits hnd hsub hlen
    hbound

/-- Witness for C8 at a concrete two-qubit circuit network and the bitstring
`10`. -/
theorem circuit_amplitude_eq_dense_entry_witness :
    (exCircuit.qubits.Nodup ∧
      (∀ q ∈ exCircuit.qubits, q ∈ exCircuit.net.allInds) ∧
      [1, 0].length = exCircuit.qubits.length ∧
      (∀ p ∈ exCircuit.qubits.zip [1, 0], p.2 < exCircuit.net.dims p.1)) ∧
    exCircuit.amplitude [1, 0] = exCircuit.denseEntry [1, 0] :=
  ⟨⟨by decide, by decide, by decide, by decide⟩,
    circuit_amplitude_eq_dense_entry exCircuit [1, 0] (by decide) (by decide)
      (by decide) (by decide)⟩

/-! ## Theorems: Split / truncated factorization (claim C3) -/

theorem dot_comm {m : ℕ} (u v : Vec m) : dot u v = dot v u := by
  unfold dot
  exact Finset.sum_congr rfl fun i _ => mul_comm _ _

theorem recompose_append {m n : ℕ} (l₁ l₂ : List (ℚ × Vec m × Vec n))
    (i : Fin m) (j : Fin n) :
    recompose (l₁ ++ l₂) i j = recompose l₁ i j + recompose l₂ i j := by
  simp [recompose]

theorem recompose_perm {m n : ℕ} {l₁ l₂ : List (ℚ × Vec m × Vec n)}
    (h : l₁.Perm l₂) (i : Fin m) (j : Fin n) :
    recompose l₁ i j = recompose l₂ i j :=
  List.Perm.sum_eq (h.map _)

theorem filter_not_perm {α : Type} (p : α → Prop) [DecidablePred p]
    (l : List α) :
    l.Perm (l.filter (fun x => p x) ++ l.filter (fun x => ¬ p x)) := by
  induction l with
  | nil => simp
  | cons x l ih =>
    by_cases hx : p x
    · have h1 : (x :: l).filter (fun x => p x) =
          x :: l.filter (fun x => p x) := by
        simp [List.filter_cons, hx]
      have h2 : (x :: l).filter (fun x => ¬ p x) =
          l.filter (fun x => ¬ p x) := by
        simp [List.filter_cons, hx]
      rw [h1, h2]
      exact ih.cons x
    · have h1 : (x :: l).filter (fun x => p x) =
          l.filter (fun x => p x) := by
        simp [List.filter_cons, hx]
      have h2 : (x :: l).filter (fun x => ¬ p x) =
          x :: l.filter (fun x => ¬ p x) := by
        simp [List.filter_cons, hx]
      rw [h1, h2]
      refine (ih.cons x).trans ?_
      exact List.perm_middle.symm

theorem kept_disc_perm {m n : ℕ} (cutoff : ℚ) (maxBond : Option ℕ)
    (l : List (ℚ × Vec m × Vec n)) :
    l.Perm (keptComps cutoff maxBond l ++ discComps cutoff maxBond l) := by
  cases maxBond with
  | none => exact filter_not_perm _ l
  | some k =>
    have he : keptComps cutoff (some k) l ++ discComps cutoff (some k) l =
        l.filter (fun c => cutoff < |c.1|) ++
          l.filter (fun c => ¬ cutoff < |c.1|) := by
      unfold keptComps discComps
      rw [← List.append_assoc, List.take_append_drop]
    rw [he]
    exact filter_not_perm _ l

theorem zip_factors {m n : ℕ} (ks : List (ℚ × Vec m × Vec n)) (i : Fin m)
    (j : Fin n) :
    (List.zipWith (fun u v => u i * v j)
      (ks.map (fun c => fun x => c.1 * c.2.1 x))
      (ks.map (fun c => c.2.2))).sum =
    (ks.map (fun c => rank1 c i j)).sum := by
  induction ks with
  | nil => rfl
  | cons c ks ih =>
    simp only [List.map_cons, List.zipWith_cons_cons, List.sum_cons, ih, rank1]

theorem contractFactors_splitT {m n : ℕ} (cutoff : ℚ) (maxBond : Option ℕ)
    (l : List (ℚ × Vec m × Vec n)) (i : Fin m) (j : Fin n) :
    contractFactors (splitT cutoff maxBond l) i j =
      recompose (keptComps cutoff maxBond l) i j := by
  unfold contractFactors splitT recompose
  exact zip_factors _ i j

theorem crossInner_rank1_rank1 {m n : ℕ} (c cc : ℚ × Vec m × Vec n) :
    crossInner (rank1 c) (rank1 cc) =
      c.1 * cc.1 * dot c.2.1 cc.2.1 * dot c.2.2 cc.2.2 := by
  unfold crossInner rank1 dot
  have h1 : ∀ i : Fin m,
      ∑ j : Fin n, (c.1 * c.2.1 i * c.2.2 j) * (cc.1 * cc.2.1 i * cc.2.2 j) =
      (c.1 * c.2.1 i * (cc.1 * cc.2.1 i)) * ∑ j, c.2.2 j * cc.2.2 j := by
    intro i
    rw [Finset.mul_sum]
    exact Finset.sum_congr rfl fun j _ => by ring
  rw [Finset.sum_congr rfl fun i _ => h1 i, ← Finset.sum_mul]
  have h2 : ∑ i : Fin m, c.1 * c.2.1 i * (cc.1 * cc.2.1 i) =
      (c.1 * cc.1) * ∑ i, c.2.1 i * cc.2.1 i := by
    rw [Finset.mul_sum]
    exact Finset.sum_congr rfl fun i _ => by ring
  rw [h2]

theorem crossInner_rank1_recompose {m n : ℕ} (c : ℚ × Vec m × Vec n) :
    ∀ (l : List (ℚ × Vec m × Vec n)),
      (∀ cc ∈ l, dot c.2.1 cc.2.1 = 0 ∧ dot c.2.2 cc.2.2 = 0) →
      crossInner (rank1 c) (recompose l) = 0 := by
  intro l
  induction l with
  | nil =>
    intro _
    simp [crossInner, recompose]
  | cons cc l ih =>
    intro h
    have he : recompose (cc :: l) =
        fun i j => rank1 cc i j + recompose l i j := by
      funext i j
      simp [recompose]
    have hadd : crossInner (rank1 c)
        (fun i j => rank1 cc i j + recompose l i j) =
        crossInner (rank1 c) (rank1 cc) +
          crossInner (rank1 c) (recompose l) := by
      unfold crossInner
      simp only [← Finset.sum_add_distrib]
      exact Finset.sum_congr rfl fun i _ =>
        Finset.sum_congr rfl fun j _ => by ring
    rw [he, hadd, crossInner_rank1_rank1]
    rcases h cc (List.mem_cons_self _ _) with ⟨h1, h2⟩
    rw [h1, ih (fun x hx => h x (List.mem_cons_of_mem _ hx))]
    ring

theorem frobSq_add {m n : ℕ} (A B : Mat m n) :
    frobSq (fun i j => A i j + B i j) =
      frobSq A + 2 * crossInner A B + frobSq B := by
  simp only [frobSq, crossInner, Finset.mul_sum, ← Finset.sum_add_distrib]
  exact Finset.sum_congr rfl fun i _ =>
    Finset.sum_congr rfl fun j _ => by ring

theorem frobSq_recompose {m n : ℕ} :
    ∀ (l : List (ℚ × Vec m × Vec n)), OrthoComps l →
      frobSq (recompose l) = (l.map (fun c => c.1 ^ 2)).sum := by
  intro l
  induction l with
  | nil =>
    intro _
    simp [frobSq, crossInner, recompose]
  | cons c l ih =>
    intro hO
    obtain ⟨hnorm, hpair⟩ := hO
    rw [List.pairwise_cons] at hpair
    have he : recompose (c :: l) =
        fun i j => rank1 c i j + recompose l i j := by
      funext i j
      simp [recompose]
    rw [he, frobSq_add, crossInner_rank1_recompose c l hpair.1]
    have hfr : frobSq (rank1 c) = c.1 ^ 2 := by
      rcases hnorm c (List.mem_cons_self _ _) with ⟨h1, h2⟩
      unfold frobSq
      rw [crossInner_rank1_rank1, h1, h2]
      ring
    rw [hfr, ih ⟨fun x hx => hnorm x (List.mem_cons_of_mem _ hx), hpair.2⟩]
    simp only [List.map_cons, List.sum_cons]
    ring

theorem orthoComps_disc {m n : ℕ} (cutoff : ℚ) (maxBond : Option ℕ)
    (l : List (ℚ × Vec m × Vec n)) (hO : OrthoComps l) :
    OrthoComps (discComps cutoff maxBond l) := by
  obtain ⟨hnorm, hpair⟩ := hO
  have hperm := kept_disc_perm cutoff maxBond l
  constructor
  · intro c hc
    exact hnorm c (hperm.mem_iff.mpr (List.mem_append.mpr (Or.inr hc)))
  · have hsymm : ∀ {x y : ℚ × Vec m × Vec n},
        (dot x.2.1 y.2.1 = 0 ∧ dot x.2.2 y.2.2 = 0) →
        (dot y.2.1 x.2.1 = 0 ∧ dot y.2.2 x.2.2 = 0) := by
      intro x y h
      constructor
      · rw [dot_comm]; exact h.1
      · rw [dot_comm]; exact h.2
    have hpall := (hperm.pairwise_iff hsymm).mp hpair
    exact List.Pairwise.sublist (List.sublist_append_right _ _) hpall

/-- C3: Split with `cutoff = 0` and `max_bond = None` followed by contracting
the two factors reconstructs the original tensor exactly (lossless
round-trip); and for any cutoff / bond cap, the squared reconstruction error
is bounded by the discarded weight that Split reports to the caller. -/
theorem split_contract_roundtrip {m n : ℕ} (M : Mat m n)
    (l : List (ℚ × Vec m × Vec n)) (hM : M = recompose l)
    (cutoff : ℚ) (maxBond : Option ℕ) (hO : OrthoComps l) :
    contractFactors (splitT 0 none l) = M ∧
    frobSq (fun i j => M i j - contractFactors (splitT cutoff maxBond l) i j)
      ≤ (splitT cutoff maxBond l).discardedSq := by
  subst hM
  constructor
  · funext i j
    rw [contractFactors_splitT]
    have hrl : recompose l i j = recompose (keptComps 0 none l) i j +
        recompose (discComps 0 none l) i j := by
      rw [recompose_perm (kept_disc_perm 0 none l), recompose_append]
    have hz : recompose (discComps 0 none l) i j = 0 := by
      refine List.sum_eq_zero fun x hx => ?_
      rcases List.mem_map.mp hx with ⟨c, hc, rfl⟩
      have hc0 : c.1 = 0 := by
        have hmem := hc
        unfold discComps at hmem
        rw [List.mem_filter] at hmem
        have hns : ¬ (0 : ℚ) < |c.1| := by simpa using hmem.2
        exact abs_eq_zero.mp (le_antisymm (not_lt.mp hns) (abs_nonneg _))
      simp [rank1, hc0]
    rw [hrl, hz, add_zero]
  · have hdiff : (fun i j => recompose l i j -
        contractFactors (splitT cutoff maxBond l) i j) =
        recompose (discComps cutoff maxBond l) := by
      funext i j
      rw [contractFactors_splitT]
      have hsplit : recompose l i j =
          recompose (keptComps cutoff maxBond l) i j +
          recompose (discComps cutoff maxBond l) i j := by
        rw [recompose_perm (kept_disc_perm cutoff maxBond l), recompose_append]
      rw [hsplit]
      ring
    rw [hdiff,
      frobSq_recompose _ (orthoComps_disc cutoff maxBond l hO)]
    exact le_refl _

/-- Witness for C3 at a concrete rank-2 orthonormal decomposition with
weights 3 and 1/2, truncated at cutoff 1 (so the 1/2 component is
discarded). -/
theorem split_contract_roundtrip_witness :
    OrthoComps exComps ∧
    (contractFactors (splitT 0 none exComps) = recompose exComps ∧
     frobSq (fun i j => recompose exComps i j -
        contractFactors (splitT 1 none exComps) i j) ≤
       (splitT 1 none exComps).discardedSq) := by
  have hO : OrthoComps exComps := by
    constructor
    · intro c hc
      simp only [exComps, List.mem_cons, List.not_mem_nil, or_false] at hc
      rcases hc with rfl | rfl
      · constructor <;> simp [dot, Fin.sum_univ_two]
      · constructor <;> simp [dot, Fin.sum_univ_two]
    · simp [exComps, List.pairwise_cons, dot, Fin.sum_univ_two]
  exact ⟨hO,
    split_contract_roundtrip (recompose exComps) exComps rfl 1 none hO⟩

/-! ## Theorems: flatten of the double-layer network (claim C6) -/

theorem mem_ite_singleton {c : Prop} [Decidable c] {x a : ℕ} :
    x ∈ (if c then [a] else []) ↔ c ∧ x = a := by
  by_cases h : c
  · simp [h]
  · simp [h]

theorem length_flatten_pairs {α β : Type} (l : List α) (f g : α → β) :
    ((l.map (fun x => [f x, g x])).flatten).length = 2 * l.length := by
  induction l with
  | nil => rfl
  | cons x l ih =>
    simp only [List.map_cons, List.flatten_cons, List.length_append,
      List.length_cons, List.length_nil, ih]
    omega

theorem gridSites_length (Lx Ly : ℕ) : (gridSites Lx Ly).length = Lx * Ly := by
  simp [gridSites]

theorem flatInds_mod (Lx Ly a b : ℕ) :
    ∀ x ∈ flatInds Lx Ly a b, x % 5 = 1 ∨ x % 5 = 2 := by
  intro x hx
  simp only [flatInds, List.mem_append, mem_ite_singleton, ketRight,
    ketDown] at hx
  rcases hx with ((⟨_, rfl⟩ | ⟨_, rfl⟩) | ⟨_, rfl⟩) | ⟨_, rfl⟩ <;> omega

theorem one_mem_flatInds_00 (Lx Ly : ℕ) (hLy : 2 ≤ Ly) :
    1 ∈ flatInds Lx Ly 0 0 := by
  simp only [flatInds, List.mem_append, mem_ite_singleton, ketRight, ketDown]
  omega

theorem one_mem_flatInds_01 (Lx Ly : ℕ) (hLy : 2 ≤ Ly) :
    1 ∈ flatInds Lx Ly 0 1 := by
  simp only [flatInds, List.mem_append, mem_ite_singleton, ketRight, ketDown]
  omega

theorem foldr_max_le (l : List ℕ) (c : ℕ) (h : ∀ x ∈ l, x ≤ c) :
    l.foldr max 0 ≤ c := by
  induction l with
  | nil => simp
  | cons x l ih =>
    simp only [List.foldr_cons]
    exact max_le (h x (List.mem_cons_self _ _))
      (ih fun y hy => h y (List.mem_cons_of_mem _ hy))

theorem le_foldr_max (l : List ℕ) (x : ℕ) (h : x ∈ l) :
    x ≤ l.foldr max 0 := by
  induction l with
  | nil => cases h
  | cons y l ih =>
    simp only [List.foldr_cons]
    rcases List.mem_cons.mp h with rfl | h'
    · exact le_max_left _ _
    · exact le_trans (ih h') (le_max_right _ _)

theorem mem_gridSites_00 (Lx Ly : ℕ) (hN : 1 ≤ Lx * Ly) :
    ((0 : ℕ), (0 : ℕ)) ∈ gridSites Lx Ly := by
  refine List.mem_map.mpr ⟨0, List.mem_range.mpr (by omega), ?_⟩
  simp

theorem sublist_gridSites (Lx Ly : ℕ) (hLy : 2 ≤ Ly) (hN : 2 ≤ Lx * Ly) :
    List.Sublist [((0 : ℕ), (0 : ℕ)), ((0 : ℕ), (1 : ℕ))] (gridSites Lx Ly) := by
  have h2 : List.Sublist (List.range 2) (List.range (Lx * Ly)) :=
    List.range_sublist.mpr hN
  have hmap := h2.map (fun s => (s / Ly, s % Ly))
  have he : (List.range 2).map (fun s => (s / Ly, s % Ly)) =
      [((0 : ℕ), (0 : ℕ)), ((0 : ℕ), (1 : ℕ))] := by
    have hr : List.range 2 = [0, 1] := by
      simp [List.range_succ]
    rw [hr]
    simp only [List.map_cons, List.map_nil]
    rw [Nat.zero_div, Nat.zero_mod, Nat.div_eq_of_lt (by omega),
      Nat.mod_eq_of_lt (by omega)]
  rw [he] at hmap
  exact hmap

theorem one_mem_innerInds_flatten (Lx Ly p d : ℕ) (kd bd : ℕ → ℕ → List ℕ → ℚ)
    (hLx : 1 ≤ Lx) (hLy : 2 ≤ Ly) :
    1 ∈ (flattenNet Lx Ly p d kd bd).innerInds := by
  have hN : 2 ≤ Lx * Ly := by
    have := Nat.mul_le_mul hLx hLy
    omega
  unfold TNet.innerInds
  rw [List.mem_filter]
  constructor
  · refine mem_allIndsOf.mpr ⟨_, List.mem_map.mpr
      ⟨((0 : ℕ), (0 : ℕ)), mem_gridSites_00 Lx Ly (by omega), rfl⟩, ?_⟩
    exact one_mem_flatInds_00 Lx Ly hLy
  · simp only [decide_eq_true_eq]
    have hsubT := (sublist_gridSites Lx Ly hLy hN).map
      (fun s : ℕ × ℕ => Tensor.mk (flatInds Lx Ly s.1 s.2)
        (fun vals => ∑ q ∈ Finset.range p,
          kd s.1 s.2 (q :: vals.map (fun v => v / d)) *
          bd s.1 s.2 (q :: vals.map (fun v => v % d))))
    have hc2 : List.countP (fun t => decide (1 ∈ t.inds))
        (List.map (fun s : ℕ × ℕ => Tensor.mk (flatInds Lx Ly s.1 s.2)
          (fun vals => ∑ q ∈ Finset.range p,
            kd s.1 s.2 (q :: vals.map (fun v => v / d)) *
            bd s.1 s.2 (q :: vals.map (fun v => v % d))))
          [((0 : ℕ), (0 : ℕ)), ((0 : ℕ), (1 : ℕ))]) = 2 := by
      simp [List.countP_cons, one_mem_flatInds_00 Lx Ly hLy,
        one_mem_flatInds_01 Lx Ly hLy]
    calc 2 = _ := hc2.symm
      _ ≤ _ := hsubT.countP_le _

theorem flatten_maxBond (Lx Ly p d : ℕ) (kd bd : ℕ → ℕ → List ℕ → ℚ)
    (hLx : 1 ≤ Lx) (hLy : 2 ≤ Ly) :
    (flattenNet Lx Ly p d kd bd).maxBond = d * d := by
  unfold TNet.maxBond
  apply le_antisymm
  · apply foldr_max_le
    intro x hx
    rcases List.mem_map.mp hx with ⟨i, hi, rfl⟩
    have hall : i ∈ (flattenNet Lx Ly p d kd bd).allInds :=
      (List.mem_filter.mp hi).1
    rcases mem_allIndsOf.mp hall with ⟨t, ht, hit⟩
    rcases List.mem_map.mp ht with ⟨s, _, rfl⟩
    have hmod := flatInds_mod Lx Ly s.1 s.2 i hit
    have : (flattenNet Lx Ly p d kd bd).dims i = d * d := by
      show flatDims p d i = d * d
      unfold flatDims
      rcases hmod with h | h <;> simp [h]
    rw [this]
  · apply le_foldr_max
    refine List.mem_map.mpr
      ⟨1, one_mem_innerInds_flatten Lx Ly p d kd bd hLx hLy, ?_⟩
    show flatDims p d 1 = d * d
    simp [flatDims]

/-- C6: flattening a bra-ket double-layer 2D network merges each per-site
layer pair into a single tensor — exactly halving (hence strictly reducing)
the tensor count — and the resulting `max_bond` equals the product of the
constituent layers' bond dimensions. -/
theorem flatten_double_layer (Lx Ly p d : ℕ) (kd bd : ℕ → ℕ → List ℕ → ℚ)
    (hLx : 1 ≤ Lx) (hLy : 2 ≤ Ly) :
    2 * (flattenNet Lx Ly p d kd bd).numTensors =
      (doubleLayerNet Lx Ly p d kd bd).numTensors ∧
    (flattenNet Lx Ly p d kd bd).numTensors <
      (doubleLayerNet Lx Ly p d kd bd).numTensors ∧
    (flattenNet Lx Ly p d kd bd).maxBond = d * d := by
  have hN : 1 ≤ Lx * Ly := by
    have := Nat.mul_le_mul hLx hLy
    omega
  have hflat : (flattenNet Lx Ly p d kd bd).numTensors = Lx * Ly := by
    simp [flattenNet, TNet.numTensors, gridSites_length]
  have hdouble : (doubleLayerNet Lx Ly p d kd bd).numTensors =
      2 * (Lx * Ly) := by
    unfold doubleLayerNet TNet.numTensors
    rw [length_flatten_pairs, gridSites_length]
  refine ⟨?_, ?_, flatten_maxBond Lx Ly p d kd bd hLx hLy⟩
  · rw [hflat, hdouble]
  · rw [hflat, hdouble]
    omega

/-- Witness for C6 at the concrete 3×5 grid with bond dimension 3 and
physical dimension 2 (the test-suite instance: 30 tensors flatten to 15 with
`max_bond` 9). -/
theorem flatten_double_layer_witness :
    (1 ≤ 3 ∧ 2 ≤ 5) ∧
    (2 * (flattenNet 3 5 2 3 (fun _ _ _ => 0) (fun _ _ _ => 0)).numTensors =
      (doubleLayerNet 3 5 2 3 (fun _ _ _ => 0) (fun _ _ _ => 0)).numTensors ∧
    (flattenNet 3 5 2 3 (fun _ _ _ => 0) (fun _ _ _ => 0)).numTensors <
      (doubleLayerNet 3 5 2 3 (fun _ _ _ => 0) (fun _ _ _ => 0)).numTensors ∧
    (flattenNet 3 5 2 3 (fun _ _ _ => 0) (fun _ _ _ => 0)).maxBond = 3 * 3) :=
  ⟨⟨by decide, by decide⟩,
    flatten_double_layer 3 5 2 3 (fun _ _ _ => 0) (fun _ _ _ => 0)
      (by decide) (by decide)⟩

/-! ## Theorems: structural error handling (claim C7) -/

/-- C7: structural errors are raised immediately and leave the network
unchanged.  (i) Tensor construction with an array shape disagreeing with the
declared index dimensions raises ShapeError, and succeeds exactly when they
agree (never silently coerced); (ii) a dimension mismatch on a shared index
during contraction raises ShapeError; (iii) contracting a pair that shares
hyperindices with the rest of the network, with no explicit output indices,
raises AmbiguousContractionError — the ambiguity is surfaced, not resolved
by a guess; (iv) any erroring contraction leaves the network unchanged
(mutations are staged and committed only on full success); (v) a contraction
that reports success had agreeing shared dimensions and, absent explicit
output indices, no ambiguous hyperindices were silently summed; (vi)
renaming an index onto a name already present elsewhere raises
NameCollisionError (`reindex`/`retag` collision check); (vii) an erroring
rename leaves the network unchanged. -/
theorem structural_errors_abort (inds tdims shape : List ℕ)
    (data : List ℕ → ℚ) (net : List DTensor) (a b : ℕ)
    (outSpec : Option (List ℕ)) (oldIx newIx : ℕ) :
    (shape ≠ tdims →
      mkTensor inds tdims shape data = Except.error TNError.shapeErr) ∧
    (mkTensor inds tdims shape data = Except.ok ⟨inds, tdims, data⟩ ↔
      shape = tdims) ∧
    (a < b ∧ b < net.length →
      ¬ sharedDimsOk (net.getD a defaultDTensor) (net.getD b defaultDTensor) →
      contractPairChecked net a b outSpec = (net, some TNError.shapeErr)) ∧
    (a < b ∧ b < net.length →
      sharedDimsOk (net.getD a defaultDTensor) (net.getD b defaultDTensor) →
      outSpec = none →
      hyperShared (net.getD a defaultDTensor) (net.getD b defaultDTensor)
        ((net.eraseIdx b).eraseIdx a) ≠ [] →
      contractPairChecked net a b outSpec =
        (net, some TNError.ambiguous)) ∧
    ((contractPairChecked net a b outSpec).2 ≠ none →
      (contractPairChecked net a b outSpec).1 = net) ∧
    ((contractPairChecked net a b outSpec).2 = none →
      sharedDimsOk (net.getD a defaultDTensor) (net.getD b defaultDTensor) ∧
      (outSpec = none →
        hyperShared (net.getD a defaultDTensor) (net.getD b defaultDTensor)
          ((net.eraseIdx b).eraseIdx a) = [])) ∧
    (newIx ≠ oldIx → newIx ∈ dAllInds net →
      reindexChecked net oldIx newIx =
        (net, some TNError.nameCollision)) ∧
    ((reindexChecked net oldIx newIx).2 ≠ none →
      (reindexChecked net oldIx newIx).1 = net) := by
  refine ⟨?_, ?_, ?_, ?_, ?_, ?_, ?_, ?_⟩
  · intro h
    unfold mkTensor
    rw [if_neg h]
  · constructor
    · intro h
      by_contra hne
      unfold mkTensor at h
      rw [if_neg hne] at h
      cases h
    · intro h
      unfold mkTensor
      rw [if_pos h]
  · intro hv hmis
    unfold contractPairChecked
    rw [if_pos hv, if_neg hmis]
  · intro hv hok hnone hhyp
    unfold contractPairChecked
    rw [if_pos hv, if_pos hok, if_pos ⟨hnone, hhyp⟩]
  · intro herr
    unfold contractPairChecked at herr ⊢
    by_cases hv : a < b ∧ b < net.length
    · rw [if_pos hv] at herr ⊢
      by_cases hok : sharedDimsOk (net.getD a defaultDTensor)
          (net.getD b defaultDTensor)
      · rw [if_pos hok] at herr ⊢
        by_cases hamb : outSpec = none ∧
            hyperShared (net.getD a defaultDTensor)
              (net.getD b defaultDTensor)
              ((net.eraseIdx b).eraseIdx a) ≠ []
        · rw [if_pos hamb]
        · rw [if_neg hamb] at herr
          exact absurd rfl herr
      · rw [if_neg hok]
    · rw [if_neg hv]
  · intro hnone
    unfold contractPairChecked at hnone
    by_cases hv : a < b ∧ b < net.length
    · rw [if_pos hv] at hnone
      by_cases hok : sharedDimsOk (net.getD a defaultDTensor)
          (net.getD b defaultDTensor)
      · refine ⟨hok, fun hos => ?_⟩
        rw [if_pos hok] at hnone
        by_cases hamb : outSpec = none ∧
            hyperShared (net.getD a defaultDTensor)
              (net.getD b defaultDTensor)
              ((net.eraseIdx b).eraseIdx a) ≠ []
        · rw [if_pos hamb] at hnone
          cases hnone
        · by_contra hne
          exact hamb ⟨hos, hne⟩
      · rw [if_neg hok] at hnone
        cases hnone
    · rw [if_neg hv] at hnone
      cases hnone
  · intro hne hmem
    unfold reindexChecked
    rw [if_pos ⟨hne, hmem⟩]
  · intro herr
    unfold reindexChecked at herr ⊢
    by_cases hc : newIx ≠ oldIx ∧ newIx ∈ dAllInds net
    · rw [if_pos hc]
    · rw [if_neg hc] at herr
      exact absurd rfl herr

/-- Witness for C7 at concrete instances: a mismatching construction (array
shape [2] against declared dims [3]); a contraction whose two tensors
disagree on their shared index dimension; a contraction of two tensors of a
three-tensor network whose shared index is a hyperindex, with no output
indices given; and a rename of index 0 onto the already-present index 1. -/
theorem structural_errors_abort_witness :
    (([2] : List ℕ) ≠ [3] ∧
      mkTensor [0] [3] [2] (fun _ => 0) = Except.error TNError.shapeErr) ∧
    ((0 < 1 ∧ 1 < exDNet.length) ∧
      ¬ sharedDimsOk (exDNet.getD 0 defaultDTensor)
        (exDNet.getD 1 defaultDTensor) ∧
      contractPairChecked exDNet 0 1 none =
        (exDNet, some TNError.shapeErr)) ∧
    ((0 < 1 ∧ 1 < exHyperNet.length) ∧
      sharedDimsOk (exHyperNet.getD 0 defaultDTensor)
        (exHyperNet.getD 1 defaultDTensor) ∧
      hyperShared (exHyperNet.getD 0 defaultDTensor)
        (exHyperNet.getD 1 defaultDTensor)
        ((exHyperNet.eraseIdx 1).eraseIdx 0) ≠ [] ∧
      contractPairChecked exHyperNet 0 1 none =
        (exHyperNet, some TNError.ambiguous)) ∧
    ((1 : ℕ) ≠ 0 ∧ (1 : ℕ) ∈ dAllInds exNameNet ∧
      reindexChecked exNameNet 0 1 =
        (exNameNet, some TNError.nameCollision)) :=
  ⟨⟨by decide,
    (structural_errors_abort [0] [3] [2] (fun _ => 0) exDNet 0 1
      none 0 1).1 (by decide)⟩,
   ⟨by decide, by decide,
    (structural_errors_abort [0] [3] [2] (fun _ => 0) exDNet 0 1
      none 0 1).2.2.1 (by decide) (by decide)⟩,
   ⟨by decide, by decide, by decide,
    (structural_errors_abort [0] [3] [2] (fun _ => 0) exHyperNet 0 1
      none 0 1).2.2.2.1 (by decide) (by decide) rfl (by decide)⟩,
   ⟨by decide, by decide,
    (structural_errors_abort [0] [3] [2] (fun _ => 0) exNameNet 0 1
      none 0 1).2.2.2.2.2.2.1 (by decide) (by decide)⟩⟩

/-! ## Theorems: gate application preserves norms (claim C9) -/

theorem sum_recombine {L : ℕ} {R : Type} [AddCommMonoid R]
    (s : Finset (Fin L)) (f : (Fin L → Fin 2) → R) :
    ∑ b : Fin L → Fin 2, f b =
      ∑ a : SubAsn s, ∑ r : (i : {x : Fin L // ¬ x ∈ s}) → Fin 2,
        f (recombine s a r) := by
  classical
  have h1 : ∑ b : Fin L → Fin 2, f b =
      ∑ p : (SubAsn s) × ({x : Fin L // ¬ x ∈ s} → Fin 2),
        f ((Equiv.piEquivPiSubtypeProd (fun x : Fin L => x ∈ s)
          (fun _ => Fin 2)).symm p) :=
    (Equiv.sum_comp (Equiv.piEquivPiSubtypeProd (fun x : Fin L => x ∈ s)
      (fun _ => Fin 2)).symm f).symm
  rw [h1, Fintype.sum_prod_type]
  rfl

theorem restrictAsn_recombine {L : ℕ} (s : Finset (Fin L)) (a : SubAsn s)
    (r : (i : {x : Fin L // ¬ x ∈ s}) → Fin 2) :
    (restrictAsn (recombine s a r) : SubAsn s) = a := by
  funext i
  unfold restrictAsn recombine
  rw [dif_pos i.2]

theorem overrideAsn_recombine {L : ℕ} (s : Finset (Fin L)) (a v : SubAsn s)
    (r : (i : {x : Fin L // ¬ x ∈ s}) → Fin 2) :
    overrideAsn s (recombine s a r) v = recombine s v r := by
  funext j
  unfold overrideAsn recombine
  by_cases h : j ∈ s
  · rw [dif_pos h, dif_pos h]
  · rw [dif_neg h, dif_neg h, dif_neg h]

/-- The core algebraic fact: a unitary matrix on a finite index type
preserves the inner product of coefficient vectors. -/
theorem unitary_matrix_inner {ι : Type} [Fintype ι] [DecidableEq ι]
    {R : Type} [CommRing R] [StarRing R] (U : ι → ι → R)
    (hU : ∀ v w : ι, (∑ k, star (U k v) * U k w) = if v = w then 1 else 0)
    (x y : ι → R) :
    (∑ a, star (∑ v, U a v * x v) * (∑ w, U a w * y w)) =
      ∑ v, star (x v) * y v := by
  have h1 : ∀ a, star (∑ v, U a v * x v) * (∑ w, U a w * y w) =
      ∑ v, ∑ w, (star (U a v) * star (x v)) * (U a w * y w) := by
    intro a
    rw [star_sum, Finset.sum_mul_sum]
    refine Finset.sum_congr rfl fun v _ => Finset.sum_congr rfl fun w _ => ?_
    rw [star_mul]
    ring
  rw [Finset.sum_congr rfl fun a _ => h1 a]
  rw [Finset.sum_comm]
  rw [Finset.sum_congr rfl fun v _ => Finset.sum_comm]
  have h2 : ∀ v w : ι, (∑ a, (star (U a v) * star (x v)) * (U a w * y w)) =
      (star (x v) * y w) * ∑ a, star (U a v) * U a w := by
    intro v w
    rw [Finset.mul_sum]
    exact Finset.sum_congr rfl fun a _ => by ring
  rw [Finset.sum_congr rfl fun v _ => Finset.sum_congr rfl fun w _ => h2 v w]
  have h3 : ∀ v w : ι, (star (x v) * y w) * (∑ a, star (U a v) * U a w) =
      if w = v then star (x v) * y v else 0 := by
    intro v w
    rw [hU v w]
    by_cases h : v = w
    · subst h
      simp
    · rw [if_neg h, if_neg (Ne.symm h), mul_zero]
  rw [Finset.sum_congr rfl fun v _ => Finset.sum_congr rfl fun w _ => h3 v w]
  refine Finset.sum_congr rfl fun v _ => ?_
  rw [Finset.sum_ite_eq' Finset.univ v, if_pos (Finset.mem_univ v)]

/-- Applying a unitary gate preserves inner products of states. -/
theorem qInner_applyGateAt {L : ℕ} {R : Type} [CommRing R] [StarRing R]
    (s : Finset (Fin L)) (U : GateMat s R) (hU : UnitaryMat U)
    (ψ φ : QState L R) :
    qInner (applyGateAt s U ψ) (applyGateAt s U φ) = qInner ψ φ := by
  classical
  unfold qInner applyGateAt
  rw [sum_recombine s, sum_recombine s (fun b => star (ψ b) * φ b)]
  rw [Finset.sum_comm, Finset.sum_comm (γ := SubAsn s)]
  refine Finset.sum_congr rfl fun r _ => ?_
  have hre : ∀ a : SubAsn s,
      star (∑ v : SubAsn s, U (restrictAsn (recombine s a r)) v *
          ψ (overrideAsn s (recombine s a r) v)) *
        (∑ w : SubAsn s, U (restrictAsn (recombine s a r)) w *
          φ (overrideAsn s (recombine s a r) w)) =
      star (∑ v : SubAsn s, U a v * ψ (recombine s v r)) *
        (∑ w : SubAsn s, U a w * φ (recombine s w r)) := by
    intro a
    rw [restrictAsn_recombine]
    rw [Finset.sum_congr rfl fun v _ =>
      (by rw [overrideAsn_recombine] :
        U a v * ψ (overrideAsn s (recombine s a r) v) =
          U a v * ψ (recombine s v r))]
    rw [Finset.sum_congr rfl fun w _ =>
      (by rw [overrideAsn_recombine] :
        U a w * φ (overrideAsn s (recombine s a r) w) =
          U a w * φ (recombine s w r))]
  rw [Finset.sum_congr rfl fun a _ => hre a]
  exact unitary_matrix_inner U hU (fun v => ψ (recombine s v r))
    (fun w => φ (recombine s w r))

theorem applyOps_norm_aux {L : ℕ} {R : Type} [CommRing R] [StarRing R] :
    ∀ (ops : List (GateOp L R)) (ψ : QState L R),
      (∀ op ∈ ops, UnitaryMat op.mat) → qInner ψ ψ = 1 →
      qInner (applyOps ops ψ) (applyOps ops ψ) = 1 := by
  intro ops
  induction ops with
  | nil =>
    intro ψ _ hψ
    exact hψ
  | cons op ops ih =>
    intro ψ hU hψ
    show qInner (applyOps ops (applyGateAt op.s op.mat ψ))
      (applyOps ops (applyGateAt op.s op.mat ψ)) = 1
    exact ih _ (fun x hx => hU x (List.mem_cons_of_mem _ hx))
      ((qInner_applyGateAt op.s op.mat (hU op (List.mem_cons_self _ _))
        ψ ψ).trans hψ)

/-- C9: applying any sequence of supported gates — each a unitary acting on
at most two qubits — to a normalized state preserves unit norm:
`psi.H @ psi = 1` after every prefix of the sequence (this is the state
semantics shared by all circuit backends). -/
theorem gate_sequence_preserves_norm {L : ℕ} {R : Type} [CommRing R]
    [StarRing R] (ops : List (GateOp L R)) (ψ : QState L R)
    (hU : ∀ op ∈ ops, UnitaryMat op.mat)
    (hcard : ∀ op ∈ ops, op.s.card ≤ 2)
    (hψ : qInner ψ ψ = 1) :
    qInner (applyOps ops ψ) (applyOps ops ψ) = 1 :=
  applyOps_norm_aux ops ψ hU hψ

/-- Witness for C9: the identity gate on the single qubit of a one-qubit
register over `ℤ`, applied to the basis state `|0⟩`. -/
theorem gate_sequence_preserves_norm_witness :
    ((∀ op ∈ [GateOp.mk (Finset.univ : Finset (Fin 1))
        (fun k v => if k = v then (1 : ℤ) else 0)], UnitaryMat op.mat) ∧
      (∀ op ∈ [GateOp.mk (Finset.univ : Finset (Fin 1))
        (fun k v => if k = v then (1 : ℤ) else 0)], op.s.card ≤ 2) ∧
      qInner (fun b : Fin 1 → Fin 2 => if b = (fun _ => 0) then (1 : ℤ)
        else 0) (fun b => if b = (fun _ => 0) then 1 else 0) = 1) ∧
    qInner
      (applyOps [GateOp.mk (Finset.univ : Finset (Fin 1))
        (fun k v => if k = v then (1 : ℤ) else 0)]
        (fun b => if b = (fun _ => 0) then 1 else 0))
      (applyOps [GateOp.mk (Finset.univ : Finset (Fin 1))
        (fun k v => if k = v then (1 : ℤ) else 0)]
        (fun b => if b = (fun _ => 0) then 1 else 0)) = 1 :=
  ⟨⟨by decide, by decide, by decide⟩,
    gate_sequence_preserves_norm _ _ (by decide) (by decide) (by decide)⟩

/-! ## Theorems: gate-splitting strategies (claim C10) -/

theorem list_sum_finset_comm {α β M : Type} [AddCommMonoid M] [Fintype β]
    (l : List α) (f : α → β → M) :
    ∑ x : β, (l.map (fun a => f a x)).sum =
      (l.map (fun a => ∑ x : β, f a x)).sum := by
  induction l with
  | nil => simp
  | cons a l ih =>
    simp only [List.map_cons, List.sum_cons]
    rw [Finset.sum_add_distrib, ih]

theorem list_sum_mul {α R : Type} [CommRing R] (l : List α) (f : α → R)
    (c : R) : (l.map f).sum * c = (l.map (fun a => f a * c)).sum := by
  induction l with
  | nil => simp
  | cons a l ih =>
    simp only [List.map_cons, List.sum_cons, add_mul, ih]

theorem applyOne_applyOne {L : ℕ} {R : Type} [CommRing R] (q1 q2 : Fin L)
    (hq : q1 ≠ q2) (A B : Fin 2 → Fin 2 → R) (ψ : QState L R)
    (b : Fin L → Fin 2) :
    applyOne q2 B (applyOne q1 A ψ) b =
      ∑ p : Fin 2 × Fin 2, (A (b q1) p.1 * B (b q2) p.2) *
        ψ (Function.update (Function.update b q1 p.1) q2 p.2) := by
  unfold applyOne
  rw [Fintype.sum_prod_type]
  have h1 : ∀ v2 : Fin 2,
      B (b q2) v2 * (∑ v1 : Fin 2, A ((Function.update b q2 v2) q1) v1 *
        ψ (Function.update (Function.update b q2 v2) q1 v1)) =
      ∑ v1 : Fin 2, (A (b q1) v1 * B (b q2) v2) *
        ψ (Function.update (Function.update b q1 v1) q2 v2) := by
    intro v2
    rw [Finset.mul_sum]
    refine Finset.sum_congr rfl fun v1 _ => ?_
    rw [Function.update_noteq hq, Function.update_comm (Ne.symm hq)]
    ring
  rw [Finset.sum_congr rfl fun v2 _ => h1 v2]
  rw [Finset.sum_comm]

theorem splitGate_eq_applyTwo {L : ℕ} {R : Type} [CommRing R] (q1 q2 : Fin L)
    (hq : q1 ≠ q2) (U : Fin 2 × Fin 2 → Fin 2 × Fin 2 → R)
    (F : List ((Fin 2 → Fin 2 → R) × (Fin 2 → Fin 2 → R)))
    (hF : IsFactorization F U) (ψ : QState L R) :
    splitGateApply q1 q2 F ψ = applyTwo q1 q2 U ψ := by
  funext b
  unfold splitGateApply applyTwo
  have h1 : ∀ p : Fin 2 × Fin 2,
      U (b q1, b q2) p *
        ψ (Function.update (Function.update b q1 p.1) q2 p.2) =
      (F.map (fun fp => (fp.1 (b q1) p.1 * fp.2 (b q2) p.2) *
        ψ (Function.update (Function.update b q1 p.1) q2 p.2))).sum := by
    intro p
    have hfac := hF (b q1) (b q2) p.1 p.2
    rw [← Prod.mk.eta (p := p), hfac, list_sum_mul]
  rw [Finset.sum_congr rfl fun p _ => h1 p, list_sum_finset_comm]
  refine congrArg List.sum (List.map_congr_left fun fp _ => ?_)
  rw [applyOne_applyOne q1 q2 hq fp.1 fp.2 ψ b]

theorem applyTwo_swap {L : ℕ} {R : Type} [CommRing R] (q1 q2 : Fin L)
    (hq : q1 ≠ q2) (U : Fin 2 × Fin 2 → Fin 2 × Fin 2 → R) (ψ : QState L R) :
    applyTwo q2 q1 (swapConj U) ψ = applyTwo q1 q2 U ψ := by
  funext b
  unfold applyTwo swapConj
  have h1 : ∀ p : Fin 2 × Fin 2,
      U (Prod.swap (b q2, b q1)) (Prod.swap p) *
        ψ (Function.update (Function.update b q2 p.1) q1 p.2) =
      U (b q1, b q2) (Prod.swap p) *
        ψ (Function.update (Function.update b q1 p.2) q2 p.1) := by
    intro p
    rw [Function.update_comm (Ne.symm hq)]
    rfl
  rw [Finset.sum_congr rfl fun p _ => h1 p]
  exact Equiv.sum_comp (Equiv.prodComm (Fin 2) (Fin 2))
    (fun p : Fin 2 × Fin 2 => U (b q1, b q2) p *
      ψ (Function.update (Function.update b q1 p.1) q2 p.2))

/-- C10: for the same two-qubit gate, the `split-gate`, `swap-split-gate` and
`auto-split-gate` strategies all produce the same state as applying the gate
directly: the strategy choice changes only the network structure, never the
represented state (fidelity 1 becomes state equality in this exact model). -/
theorem split_strategies_agree {L : ℕ} {R : Type} [CommRing R]
    (q1 q2 : Fin L) (hq : q1 ≠ q2)
    (U : Fin 2 × Fin 2 → Fin 2 × Fin 2 → R)
    (F G : List ((Fin 2 → Fin 2 → R) × (Fin 2 → Fin 2 → R)))
    (hF : IsFactorization F U) (hG : IsFactorization G (swapConj U))
    (ψ : QState L R) :
    splitGateApply q1 q2 F ψ = applyTwo q1 q2 U ψ ∧
    swapSplitApply q1 q2 G ψ = applyTwo q1 q2 U ψ ∧
    autoSplitApply q1 q2 F G ψ = applyTwo q1 q2 U ψ := by
  have hA := splitGate_eq_applyTwo q1 q2 hq U F hF ψ
  have hB : swapSplitApply q1 q2 G ψ = applyTwo q1 q2 U ψ := by
    unfold swapSplitApply
    rw [splitGate_eq_applyTwo q2 q1 (Ne.symm hq) (swapConj U) G hG ψ]
    exact applyTwo_swap q1 q2 hq U ψ
  refine ⟨hA, hB, ?_⟩
  unfold autoSplitApply
  split
  · exact hA
  · exact hB

/-- Witness for C10: the identity two-qubit gate over `ℤ` on qubits 0, 1 of a
two-qubit register, factorized through a one-component bond as identity ⊗
identity. -/
theorem split_strategies_agree_witness :
    ((0 : Fin 2) ≠ 1 ∧
      IsFactorization
        [((fun a c => if a = c then (1 : ℤ) else 0),
          (fun a c => if a = c then (1 : ℤ) else 0))]
        (fun x y => if x = y then (1 : ℤ) else 0) ∧
      IsFactorization
        [((fun a c => if a = c then (1 : ℤ) else 0),
          (fun a c => if a = c then (1 : ℤ) else 0))]
        (swapConj (fun x y => if x = y then (1 : ℤ) else 0))) ∧
    (splitGateApply (0 : Fin 2) 1
        [((fun a c => if a = c then (1 : ℤ) else 0),
          (fun a c => if a = c then (1 : ℤ) else 0))]
        (fun _ => (1 : ℤ)) =
      applyTwo (0 : Fin 2) 1 (fun x y => if x = y then (1 : ℤ) else 0)
        (fun _ => (1 : ℤ)) ∧
     swapSplitApply (0 : Fin 2) 1
        [((fun a c => if a = c then (1 : ℤ) else 0),
          (fun a c => if a = c then (1 : ℤ) else 0))]
        (fun _ => (1 : ℤ)) =
      applyTwo (0 : Fin 2) 1 (fun x y => if x = y then (1 : ℤ) else 0)
        (fun _ => (1 : ℤ)) ∧
     autoSplitApply (0 : Fin 2) 1
        [((fun a c => if a = c then (1 : ℤ) else 0),
          (fun a c => if a = c then (1 : ℤ) else 0))]
        [((fun a c => if a = c then (1 : ℤ) else 0),
          (fun a c => if a = c then (1 : ℤ) else 0))]
        (fun _ => (1 : ℤ)) =
      applyTwo (0 : Fin 2) 1 (fun x y => if x = y then (1 : ℤ) else 0)
        (fun _ => (1 : ℤ))) :=
  ⟨⟨by decide, by decide, by decide⟩,
    split_strategies_agree (0 : Fin 2) 1 (by decide) _ _ _ (by decide)
      (by decide) (fun _ => (1 : ℤ))⟩

end Quimb
